import Mathlib

/-! # RTTR `type_database`: hashing utility and id-ordered facet containers

A shallow embedding of `src/rttr/detail/type/type_database_p.h`.

* `generate_hash` and `data_container::order_by_id` are defined inline in the
  header and are embedded from it.
* The register/get operations are only declared in the header; their bodies
  are not among the sources, so they are modelled from the specification
  text. Every such definition says so in its doc comment.

Machine integers are natural numbers reduced modulo `2 ^ size_t_bits`; a byte
of a C string is a `Fin 256`.
-/

namespace rttr.detail

/-! ## Platform parameters -/

/-- The two implementation-defined choices `generate_hash` depends on: the
width of `std::size_t` and whether plain `char` is a signed type. -/
structure platform where
  size_t_bits : Nat
  char_signed : Bool
deriving DecidableEq, Repr

/-- The value of a `char` object holding the byte `c`: with a signed `char`
the bytes `0x80..0xFF` are the negative numbers `-128..-1`. -/
def char_value (p : platform) (c : Fin 256) : Int :=
  if p.char_signed && decide (128 ≤ c.val) then (c.val : Int) - 256 else (c.val : Int)

/-- Conversion of an integer to `std::size_t` (reduction modulo `2 ^ w`), as
done by `static_cast<std::size_t>` and by the usual arithmetic conversions. -/
def to_size_t (p : platform) (v : Int) : Nat :=
  (v % ((2 ^ p.size_t_bits : Nat) : Int)).toNat

/-! ## `type_database::generate_hash` -/

namespace type_database

/-- The loop `for (; *text; ++text) hash = (hash ^ *text) * magic_prime;`.
`text` is the memory the pointer refers to. The loop ends at the first zero
byte; running off the modelled memory (no terminator) is an out-of-bounds
read and yields `none`. -/
def generate_hash_loop (p : platform) (magic_prime : Nat) :
    Nat → List (Fin 256) → Option Nat
  | _, [] => none
  | hash, c :: text =>
    if c = 0 then some hash
    else generate_hash_loop p magic_prime
      (((hash ^^^ to_size_t p (char_value p c)) * magic_prime) % 2 ^ p.size_t_bits) text

/-- The overload `generate_hash(const char* text)`. -/
def generate_hash (p : platform) (text : List (Fin 256)) : Option Nat :=
  generate_hash_loop p (to_size_t p 0x01000193) (to_size_t p 0xcbf29ce4) text

/-- The buffer `std::string::c_str()` points to: the contents followed by a
terminating zero byte. -/
def c_str (text : List (Fin 256)) : List (Fin 256) := text ++ [0]

/-- The overload `generate_hash(const std::string& text)`, which forwards to
the `const char*` overload on `text.c_str()`. -/
def generate_hash_string (p : platform) (text : List (Fin 256)) : Option Nat :=
  generate_hash p (c_str text)

end type_database

/-- The hash as the specification words it: start at the offset basis
`0xcbf29ce4`, and for each byte in order replace `hash` by
`(hash XOR byte) * 0x01000193`, everything modulo `2 ^ w`, with the byte taken
as its value `0..255`; no finalization. -/
def spec_fnv1a_fold (w : Nat) (s : List (Fin 256)) : Nat :=
  s.foldl (fun hash byte => ((hash ^^^ byte.val) * 0x01000193) % 2 ^ w) (0xcbf29ce4 % 2 ^ w)

/-- The published 32-bit FNV-1a function (offset basis `0x811c9dc5`, prime
`0x01000193`), whose reference vectors include `""`, `"a"` and `"foobar"`. -/
def published_fnv1a_32 (s : List (Fin 256)) : Nat :=
  s.foldl (fun hash byte => ((hash ^^^ byte.val) * 0x01000193) % 2 ^ 32) 0x811c9dc5

/-- The bytes of `"a"`. -/
def str_a : List (Fin 256) := [0x61]

/-- The bytes of `"foobar"`. -/
def str_foobar : List (Fin 256) := [0x66, 0x6f, 0x6f, 0x62, 0x61, 0x72]

/-! ## `data_container` and `order_by_id` -/

/-- The struct `data_container<T, Data_Type>`: an id and its payload. The
handle `type::type_id`, a small non-negative integer, is a natural number. -/
structure data_container (D : Type) where
  m_id : Nat
  m_data : D
deriving DecidableEq, Repr

namespace data_container

/-- The overload `order_by_id::operator()(const data_container&, const data_container&)`. -/
def order_by_id {D : Type} (_left _right : data_container D) : Bool :=
  decide (_left.m_id < _right.m_id)

/-- The overload `order_by_id::operator()(const type::type_id&, const data_container&)`. -/
def order_by_id_left {D : Type} (_left : Nat) (_right : data_container D) : Bool :=
  decide (_left < _right.m_id)

/-- The overload `order_by_id::operator()(const data_container&, const type::type_id&)`. -/
def order_by_id_right {D : Type} (_left : data_container D) (_right : Nat) : Bool :=
  decide (_left.m_id < _right)

end data_container

open data_container

/-! ## Facet objects -/

/-- Modelled from the spec: the converter facet (`type_converter_base` is only
forward-declared in the sources). It carries its internal target type;
`object` stands for the identity (address) of the converter object. -/
structure type_converter_base where
  m_target_type : Nat
  object : Nat
deriving DecidableEq, Repr

/-- Modelled from the spec: the comparator facet, referenced and never owned;
`object` is the identity of the referenced comparator. -/
structure type_comparator_base where
  object : Nat
deriving DecidableEq, Repr

/-- Modelled from the spec: the enumeration facet owned by the registry;
`object` is the identity of the wrapper. -/
structure enumeration_wrapper_base where
  object : Nat
deriving DecidableEq, Repr

/-- Modelled from the spec: the view `get_enumeration` hands out, over the
stored wrapper, or empty/invalid when there is none. -/
structure enumeration where
  m_wrapper : Option enumeration_wrapper_base
deriving DecidableEq, Repr

/-- Modelled from the spec: the external key/value variant; equality is
equality of the dynamic value. -/
inductive variant where
  | of_int (v : Int)
  | of_bool (b : Bool)
  | of_text (s : List (Fin 256))
deriving DecidableEq, Repr

/-- Modelled from the spec: one (key, value) pair of a metadata facet. -/
structure metadata where
  key : variant
  value : variant
deriving DecidableEq, Repr

/-! ## Ordered association container -/

/-- Modelled from the spec: binary search for the first position whose entry
is not ordered before `id` (the search `std::lower_bound` performs with
`order_by_id`); `fuel` bounds the number of halvings. -/
def lower_bound_loop {D : Type} (vec : List (data_container D)) (id : Nat) :
    Nat → Nat → Nat → Nat
  | 0, first, _ => first
  | fuel + 1, first, count =>
    if count = 0 then first
    else
      let step := count / 2
      match vec[first + step]? with
      | none => first
      | some item =>
        if order_by_id_right item id then
          lower_bound_loop vec id fuel (first + step + 1) (count - (step + 1))
        else
          lower_bound_loop vec id fuel first step

/-- Modelled from the spec: binary search by bare id over the whole container. -/
def lower_bound {D : Type} (vec : List (data_container D)) (id : Nat) : Nat :=
  lower_bound_loop vec id vec.length 0 vec.length

/-- Modelled from the spec: binary search for the first position whose entry
is ordered after `id` (the end of the run of entries with key `id`). -/
def upper_bound_loop {D : Type} (vec : List (data_container D)) (id : Nat) :
    Nat → Nat → Nat → Nat
  | 0, first, _ => first
  | fuel + 1, first, count =>
    if count = 0 then first
    else
      let step := count / 2
      match vec[first + step]? with
      | none => first
      | some item =>
        if order_by_id_left id item then
          upper_bound_loop vec id fuel first step
        else
          upper_bound_loop vec id fuel (first + step + 1) (count - (step + 1))

/-- Modelled from the spec: the end of the run with key `id`, by binary search. -/
def upper_bound {D : Type} (vec : List (data_container D)) (id : Nat) : Nat :=
  upper_bound_loop vec id vec.length 0 vec.length

/-- Modelled from the spec: the lookup that returns the full contiguous
sub-range of entries sharing `id`. -/
def equal_range {D : Type} (vec : List (data_container D)) (id : Nat) :
    List (data_container D) :=
  (vec.drop (lower_bound vec id)).take (upper_bound vec id - lower_bound vec id)

/-- Modelled from the spec: where a new entry goes among the entries already
stored under the same id. The spec asks for an insertion that preserves the
order and locates the position by binary search; it fixes no position within
a run of equal ids, so both ends of the run are admitted: in front of it
(the lower bound) or behind it (the upper bound). -/
inductive insert_position where
  | at_lower_bound
  | at_upper_bound
deriving DecidableEq, Repr

/-- Modelled from the spec: the index the binary search for the insertion
position returns. -/
def insert_index {D : Type} (pos : insert_position) (vec : List (data_container D))
    (id : Nat) : Nat :=
  match pos with
  | .at_lower_bound => lower_bound vec id
  | .at_upper_bound => upper_bound vec id

/-- Modelled from the spec: insert-preserving-order. The position is located
by binary search and the tail is shifted. -/
def insert_ordered {D : Type} (pos : insert_position) (vec : List (data_container D))
    (item : data_container D) : List (data_container D) :=
  vec.take (insert_index pos vec item.m_id) ++ item :: vec.drop (insert_index pos vec item.m_id)

/-- Modelled from the spec: binary-search lookup by bare id returning the
matching entry or an absence signal (`get_item_by_type` is only declared in
the sources). -/
def get_item_by_type {D : Type} (id : Nat) (vec : List (data_container D)) : Option D :=
  match vec[lower_bound vec id]? with
  | some item => if item.m_id = id then some item.m_data else none
  | none => none

/-- Modelled from the spec: insertion of a new entry keyed by `id`
(`register_item_type` is only declared in the sources). -/
def register_item_type {D : Type} (pos : insert_position) (id : Nat) (new_item : D)
    (vec : List (data_container D)) : List (data_container D) :=
  insert_ordered pos vec ⟨id, new_item⟩

/-- Modelled from the spec: insert-or-replace, and update in place, of the
single entry keyed by `id`: when the binary search finds an entry with key
`id` its payload becomes `f (some old)`, otherwise a new entry with payload
`f none` is inserted in order. -/
def upsert_item_type {D : Type} (pos : insert_position) (id : Nat) (f : Option D → D)
    (vec : List (data_container D)) : List (data_container D) :=
  match vec[lower_bound vec id]? with
  | some item =>
    if item.m_id = id then vec.set (lower_bound vec id) ⟨id, f (some item.m_data)⟩
    else insert_ordered pos vec ⟨id, f none⟩
  | none => insert_ordered pos vec ⟨id, f none⟩

/-! ## The registry -/

/-- The four storage vectors of `type_database`. -/
structure type_database where
  m_type_converter_list : List (data_container type_converter_base)
  m_type_comparator_list : List (data_container type_comparator_base)
  m_enumeration_list : List (data_container enumeration_wrapper_base)
  m_metadata_type_list : List (data_container (List metadata))
deriving DecidableEq, Repr

namespace type_database

/-- The registry before any registration. -/
def empty : type_database := ⟨[], [], [], []⟩

/-- Modelled from the spec: `register_enumeration(type_id, wrapper)` inserts
or replaces the enumeration facet for `type_id` (the body is not among the
sources). -/
def register_enumeration (pos : insert_position) (db : type_database) (t : Nat)
    (enum_data : enumeration_wrapper_base) : type_database :=
  { db with m_enumeration_list :=
      upsert_item_type pos t (fun _ => enum_data) db.m_enumeration_list }

/-- Modelled from the spec: `register_metadata(type_id, entries)` appends
`entries` to the metadata list for `type_id`, creating the list if absent;
keys are not deduplicated (the body is not among the sources). -/
def register_metadata (pos : insert_position) (db : type_database) (t : Nat)
    (data : List metadata) : type_database :=
  { db with m_metadata_type_list :=
      upsert_item_type pos t (fun old => old.getD [] ++ data) db.m_metadata_type_list }

/-- Modelled from the spec: `register_converter(type_id, converter)` inserts
a new converter entry keyed by the source `type_id` (the body is not among
the sources). -/
def register_converter (pos : insert_position) (db : type_database) (t : Nat)
    (converter : type_converter_base) : type_database :=
  { db with m_type_converter_list :=
      register_item_type pos t converter db.m_type_converter_list }

/-- Modelled from the spec: `register_comparator(type_id, comparator_ref)`
inserts a non-owning reference keyed by `type_id` (the body is not among the
sources). The spec leaves open what a second registration for the same id
does; the theorems about the comparator container are stated for ids that
are registered at most once, or never. -/
def register_comparator (pos : insert_position) (db : type_database) (t : Nat)
    (comparator : type_comparator_base) : type_database :=
  { db with m_type_comparator_list :=
      register_item_type pos t comparator db.m_type_comparator_list }

/-- Modelled from the spec: `get_converter(source_id, target_id)`
binary-searches the converter container for the contiguous run with key
`source_id` and linear-scans that run for an entry whose internal target
matches `target_id`; absence if no run or no match. -/
def get_converter (db : type_database) (source_type target_type : Nat) :
    Option type_converter_base :=
  ((equal_range db.m_type_converter_list source_type).find?
    (fun item => decide (item.m_data.m_target_type = target_type))).map (fun item => item.m_data)

/-- Modelled from the spec: `get_comparator(type_id)`, a binary search by
`type_id`; absence if not present. -/
def get_comparator (db : type_database) (t : Nat) : Option type_comparator_base :=
  get_item_by_type t db.m_type_comparator_list

/-- Modelled from the spec: `get_enumeration(type_id)`, a binary search; an
empty/invalid view if absent, otherwise a view over the stored wrapper. -/
def get_enumeration (db : type_database) (t : Nat) : enumeration :=
  ⟨get_item_by_type t db.m_enumeration_list⟩

end type_database

/-- One registration call with its arguments. -/
inductive registration where
  | converter (t : Nat) (converter : type_converter_base)
  | comparator (t : Nat) (comparator : type_comparator_base)
  | enumeration (t : Nat) (enum_data : enumeration_wrapper_base)
  | metadata (t : Nat) (data : List metadata)
deriving DecidableEq, Repr

/-- The effect of one registration call on the registry. -/
def registration.apply (pos : insert_position) (db : type_database) :
    registration → type_database
  | .converter t c => db.register_converter pos t c
  | .comparator t c => db.register_comparator pos t c
  | .enumeration t e => db.register_enumeration pos t e
  | .metadata t d => db.register_metadata pos t d

/-- The registry reached from `db` by a sequence of registrations, in order. -/
def registered_from (pos : insert_position) (db : type_database)
    (calls : List registration) : type_database :=
  calls.foldl (registration.apply pos) db

/-- The registry reached from the empty one by a sequence of registrations. -/
def registered (pos : insert_position) (calls : List registration) : type_database :=
  registered_from pos type_database.empty calls

/-- Every entry's `m_id` is strictly less than the `m_id` of the entry that
follows it, under `order_by_id`. -/
def strictly_sorted_by_id {D : Type} (vec : List (data_container D)) : Prop :=
  vec.Chain' (fun l r => order_by_id l r = true)

/-- Ascending order that admits runs of equal ids: no entry is ordered, under
`order_by_id`, before an entry that precedes it. -/
def sorted_by_id {D : Type} (vec : List (data_container D)) : Prop :=
  vec.Pairwise (fun l r => order_by_id r l = false)

/-- The range is partitioned with respect to `pred`: every element that
satisfies `pred` comes before every element that does not (the precondition
of a binary search with that predicate). -/
def partitioned {α : Type} (pred : α → Bool) (vec : List α) : Prop :=
  vec.Pairwise (fun a b => pred b = true → pred a = true)

end rttr.detail

/-! # Theorems -/

namespace rttr.detail

open data_container type_database

/-! ## The hash -/

theorem to_size_t_natCast (p : platform) (n : Nat) :
    to_size_t p (n : Int) = n % 2 ^ p.size_t_bits := by
  unfold to_size_t
  rw [← Int.natCast_mod, Int.toNat_natCast]

theorem to_size_t_ofNat_prime (p : platform) :
    to_size_t p 0x01000193 = 0x01000193 % 2 ^ p.size_t_bits :=
  to_size_t_natCast p 0x01000193

theorem to_size_t_ofNat_basis (p : platform) :
    to_size_t p 0xcbf29ce4 = 0xcbf29ce4 % 2 ^ p.size_t_bits :=
  to_size_t_natCast p 0xcbf29ce4

/-- A byte that is not sign-extended converts to its own value. -/
theorem to_size_t_char_value_plain (p : platform) (c : Fin 256) (hw : 8 ≤ p.size_t_bits)
    (hc : p.char_signed = true → c.val < 128) :
    to_size_t p (char_value p c) = c.val := by
  have hlt : c.val < 2 ^ p.size_t_bits :=
    lt_of_lt_of_le c.isLt (by
      calc 256 = 2 ^ 8 := by norm_num
        _ ≤ 2 ^ p.size_t_bits := Nat.pow_le_pow_right (by norm_num) hw)
  have hv : char_value p c = (c.val : Int) := by
    unfold char_value
    cases hs : p.char_signed with
    | false => simp
    | true =>
      have := hc hs
      have h2 : ¬ (128 ≤ c.val) := by omega
      simp [h2]
  rw [hv, to_size_t_natCast, Nat.mod_eq_of_lt hlt]

/-- A sign-extended byte (signed `char`, value `0x80..0xFF`) converts to
`2 ^ w - 256 + c`: all the bits above the low eight are set. -/
theorem to_size_t_char_value_signed (p : platform) (c : Fin 256) (hw : 8 ≤ p.size_t_bits)
    (hs : p.char_signed = true) (hc : 128 ≤ c.val) :
    to_size_t p (char_value p c) = 2 ^ p.size_t_bits - 256 + c.val := by
  have h256 : 256 ≤ 2 ^ p.size_t_bits := by
    calc 256 = 2 ^ 8 := by norm_num
      _ ≤ 2 ^ p.size_t_bits := Nat.pow_le_pow_right (by norm_num) hw
  have hlt := c.isLt
  have hv : char_value p c = (c.val : Int) - 256 := by
    unfold char_value
    simp [hs, hc]
  have hcast : (c.val : Int) - 256 = ((2 ^ p.size_t_bits - 256 + c.val : Nat) : Int)
      + (-1) * ((2 ^ p.size_t_bits : Nat) : Int) := by
    push_cast [Nat.cast_sub h256]
    ring
  have hlt2 : 2 ^ p.size_t_bits - 256 + c.val < 2 ^ p.size_t_bits := by omega
  unfold to_size_t
  rw [hv, hcast, Int.add_mul_emod_self, ← Int.natCast_mod, Int.toNat_natCast,
    Nat.mod_eq_of_lt hlt2]

/-- The loop over a NUL-free prefix followed by a zero byte returns the left
fold of its body over the prefix, whatever follows the zero byte. -/
theorem generate_hash_loop_terminated (p : platform) (magic_prime : Nat)
    (s rest : List (Fin 256)) (hs : ∀ c ∈ s, c ≠ 0) (hash : Nat) :
    generate_hash_loop p magic_prime hash (s ++ 0 :: rest) =
      some (s.foldl (fun hash c =>
        ((hash ^^^ to_size_t p (char_value p c)) * magic_prime) % 2 ^ p.size_t_bits) hash) := by
  induction s generalizing hash with
  | nil => simp [generate_hash_loop]
  | cons c s ih =>
    have hc : c ≠ 0 := hs c (List.mem_cons_self _ _)
    have hs2 : ∀ d ∈ s, d ≠ 0 := fun d hd => hs d (List.mem_cons_of_mem _ hd)
    simp only [List.cons_append, generate_hash_loop, hc, if_false, List.foldl_cons]
    exact ih hs2 _

/-- Where no byte is sign-extended (unsigned `char`, or every byte below
`0x80`) the code computes the fold of the specification. -/
theorem generate_hash_eq_fold_of_plain (p : platform) (s rest : List (Fin 256))
    (hw : 8 ≤ p.size_t_bits) (hs : ∀ c ∈ s, c ≠ 0)
    (hplain : p.char_signed = true → ∀ c ∈ s, c.val < 128) :
    generate_hash p (s ++ 0 :: rest) = some (spec_fnv1a_fold p.size_t_bits s) := by
  unfold generate_hash spec_fnv1a_fold
  rw [generate_hash_loop_terminated p _ s rest hs, to_size_t_ofNat_prime, to_size_t_ofNat_basis]
  congr 1
  generalize (0xcbf29ce4 % 2 ^ p.size_t_bits) = h0
  induction s generalizing h0 with
  | nil => rfl
  | cons c s ih =>
    have hc : to_size_t p (char_value p c) = c.val :=
      to_size_t_char_value_plain p c hw (fun h => hplain h c (List.mem_cons_self _ _))
    simp only [List.foldl_cons, hc]
    rw [Nat.mul_mod, Nat.mod_mod, ← Nat.mul_mod]
    exact ih (fun d hd => hs d (List.mem_cons_of_mem _ hd))
      (fun h d hd => hplain h d (List.mem_cons_of_mem _ hd)) _

/-- C1 (evaluation of the code at the failing input): with a signed `char`
the byte `0x80` is sign-extended before the XOR, so `generate_hash` of the
one-byte string `"\x80"` is not the fold of the specification over the byte
value 128, for a 64-bit and for a 32-bit `std::size_t`. -/
theorem generate_hash_high_byte_not_fold :
    generate_hash_string ⟨64, true⟩ [0x80] = some 18389336520056338028 ∧
    spec_fnv1a_fold 64 [0x80] = 57407552713666924 ∧
    generate_hash_string ⟨32, true⟩ [0x80] = some 1427338860 ∧
    spec_fnv1a_fold 32 [0x80] = 1928081772 := by
  decide

/-- C7: the hash of the empty string is the raw offset basis `0xcbf29ce4`,
through the `std::string` overload and through the `const char*` overload
(whatever lies behind the terminator), on every platform whose `std::size_t`
has at least 32 bits. -/
theorem generate_hash_empty (p : platform) (hw : 32 ≤ p.size_t_bits) (rest : List (Fin 256)) :
    generate_hash_string p [] = some 0xcbf29ce4 ∧
    generate_hash p (0 :: rest) = some 0xcbf29ce4 := by
  have hlt : 0xcbf29ce4 < 2 ^ p.size_t_bits :=
    lt_of_lt_of_le (by norm_num : 0xcbf29ce4 < 2 ^ 32) (Nat.pow_le_pow_right (by norm_num) hw)
  have hb : to_size_t p 0xcbf29ce4 = 0xcbf29ce4 := by
    rw [to_size_t_ofNat_basis, Nat.mod_eq_of_lt hlt]
  constructor
  · simp [generate_hash_string, c_str, generate_hash, generate_hash_loop, hb]
  · simp [generate_hash, generate_hash_loop, hb]

theorem generate_hash_empty_witness :
    32 ≤ (⟨64, true⟩ : platform).size_t_bits ∧
    generate_hash_string ⟨64, true⟩ [] = some 0xcbf29ce4 ∧
    generate_hash ⟨64, true⟩ (0 :: [0x41, 0x42]) = some 0xcbf29ce4 :=
  ⟨by decide, generate_hash_empty ⟨64, true⟩ (by decide) [0x41, 0x42]⟩

/-- C8 (counterexample): on a 32-bit `std::size_t` the hashes of `""`, `"a"`
and `"foobar"` are not the published FNV-1a values `0x811c9dc5`,
`0xe40c292c` and `0xbf9cf968`. -/
theorem generate_hash_not_published_vectors :
    published_fnv1a_32 [] = 0x811c9dc5 ∧
    published_fnv1a_32 str_a = 0xe40c292c ∧
    published_fnv1a_32 str_foobar = 0xbf9cf968 ∧
    generate_hash_string ⟨32, false⟩ [] ≠ some 0x811c9dc5 ∧
    generate_hash_string ⟨32, false⟩ str_a ≠ some 0xe40c292c ∧
    generate_hash_string ⟨32, false⟩ str_foobar ≠ some 0xbf9cf968 := by
  decide

/-- C8 (amended): `generate_hash` reproduces exactly the values of the FNV-1a
recurrence started at the offset basis `0xcbf29ce4`: for `""`, `"a"` and
`"foobar"` it returns `0xcbf29ce4`, `0x93ec655f`, `0x22426019` on a 32-bit
`std::size_t` and `0xcbf29ce4`, `0xcbf3dd93ec655f`, `0xeaddc0fd22426019` on a
64-bit one, whatever the signedness of `char`. -/
theorem generate_hash_vectors (char_signed : Bool) :
    generate_hash_string ⟨32, char_signed⟩ [] = some 0xcbf29ce4 ∧
    generate_hash_string ⟨32, char_signed⟩ str_a = some 0x93ec655f ∧
    generate_hash_string ⟨32, char_signed⟩ str_foobar = some 0x22426019 ∧
    generate_hash_string ⟨64, char_signed⟩ [] = some 0xcbf29ce4 ∧
    generate_hash_string ⟨64, char_signed⟩ str_a = some 0xcbf3dd93ec655f ∧
    generate_hash_string ⟨64, char_signed⟩ str_foobar = some 0xeaddc0fd22426019 := by
  cases char_signed <;> decide

/-- C9: the hash is a function of the bytes up to the terminator only: for a
NUL-free `s` the `const char*` overload returns the same value whatever
memory follows the terminating zero byte, that value is the one the
`std::string` overload returns on `s`, and it is always produced. -/
theorem generate_hash_deterministic (p : platform) (s rest₁ rest₂ : List (Fin 256))
    (hs : ∀ c ∈ s, c ≠ 0) :
    generate_hash p (s ++ 0 :: rest₁) = generate_hash p (s ++ 0 :: rest₂) ∧
    generate_hash_string p s = generate_hash p (s ++ 0 :: rest₁) ∧
    (generate_hash_string p s).isSome = true := by
  have h1 := generate_hash_loop_terminated p (to_size_t p 0x01000193) s rest₁ hs
    (to_size_t p 0xcbf29ce4)
  have h2 := generate_hash_loop_terminated p (to_size_t p 0x01000193) s rest₂ hs
    (to_size_t p 0xcbf29ce4)
  have h3 := generate_hash_loop_terminated p (to_size_t p 0x01000193) s [] hs
    (to_size_t p 0xcbf29ce4)
  refine ⟨?_, ?_, ?_⟩
  · unfold generate_hash
    rw [h1, h2]
  · unfold generate_hash_string c_str generate_hash
    rw [h1, h3]
  · unfold generate_hash_string c_str generate_hash
    rw [h3]
    rfl

theorem generate_hash_deterministic_witness :
    (∀ c ∈ ([0x66, 0xf6] : List (Fin 256)), c ≠ 0) ∧
    generate_hash ⟨64, true⟩ ([0x66, 0xf6] ++ 0 :: [0x01]) =
      generate_hash ⟨64, true⟩ ([0x66, 0xf6] ++ 0 :: [0xff, 0x00]) ∧
    generate_hash_string ⟨64, true⟩ [0x66, 0xf6] =
      generate_hash ⟨64, true⟩ ([0x66, 0xf6] ++ 0 :: [0x01]) ∧
    (generate_hash_string ⟨64, true⟩ [0x66, 0xf6]).isSome = true :=
  ⟨by simp, generate_hash_deterministic ⟨64, true⟩ [0x66, 0xf6] [0x01] [0xff, 0x00] (by simp)⟩

/-- C10 (evaluation of the code at the failing input): with a signed `char`
the two-byte strings `"\x01\xff"` and `"\xff\x01"` have the same hash, for a
64-bit and for a 32-bit `std::size_t`. -/
theorem generate_hash_swap_collision :
    generate_hash_string ⟨64, true⟩ [0x01, 0xff] = some 0xe0fb2c9c81ee8280 ∧
    generate_hash_string ⟨64, true⟩ [0xff, 0x01] = some 0xe0fb2c9c81ee8280 ∧
    generate_hash_string ⟨32, true⟩ [0x01, 0xff] = generate_hash_string ⟨32, true⟩ [0xff, 0x01] := by
  decide

end rttr.detail

/-! ## Order sensitivity where no byte is sign-extended -/

namespace rttr.detail

open data_container type_database

theorem xor_shiftRight_distrib (x y n : Nat) : (x ^^^ y) >>> n = x >>> n ^^^ y >>> n := by
  apply Nat.eq_of_testBit_eq
  intro i
  simp [Nat.testBit_shiftRight, Nat.testBit_xor]

theorem xor_eq_xor_of_cross (x y a b : Nat) (h : x ^^^ b = y ^^^ a) : x ^^^ y = a ^^^ b := by
  apply Nat.eq_of_testBit_eq
  intro i
  have hi := congrArg (fun n => Nat.testBit n i) h
  simp only [Nat.testBit_xor] at hi ⊢
  revert hi
  cases x.testBit i <;> cases y.testBit i <;> cases a.testBit i <;> cases b.testBit i <;> simp

/-- Two numbers whose XOR is below 256 agree above their low eight bits. -/
theorem div_256_eq_of_xor_lt (x y : Nat) (h : x ^^^ y < 256) : x / 256 = y / 256 := by
  have h1 : (x ^^^ y) >>> 8 = 0 := by
    rw [Nat.shiftRight_eq_div_pow]
    exact Nat.div_eq_of_lt h
  rw [xor_shiftRight_distrib, Nat.xor_eq_zero, Nat.shiftRight_eq_div_pow,
    Nat.shiftRight_eq_div_pow] at h1
  exact h1

/-- Multiplying by the prime `0x01000193` modulo a word of at least 32 bits
separates two numbers that differ by less than 256. -/
theorem mul_prime_mod_separates (N u v : Nat) (hN : 2 ^ 32 ≤ N) (hvu : v < u)
    (hd : u < v + 256)
    (hXY : (u * 0x01000193 % N) / 256 = (v * 0x01000193 % N) / 256) : False := by
  have hNpos : 0 < N := lt_of_lt_of_le (by norm_num) hN
  have hX : u * 0x01000193 % N ≡ u * 0x01000193 [MOD N] := Nat.mod_modEq _ _
  have hY : v * 0x01000193 % N ≡ v * 0x01000193 [MOD N] := Nat.mod_modEq _ _
  obtain ⟨d, rfl⟩ : ∃ d, u = v + d := ⟨u - v, by omega⟩
  have hd0 : 0 < d := by omega
  have hd1 : d < 256 := by omega
  have hsum : v * 0x01000193 % N + d * 0x01000193 ≡ (v + d) * 0x01000193 [MOD N] := by
    rw [Nat.add_mul]
    exact Nat.ModEq.add_right _ hY
  have hmod : (v + d) * 0x01000193 % N ≡ v * 0x01000193 % N + d * 0x01000193 [MOD N] :=
    hX.trans hsum.symm
  have hle : (v + d) * 0x01000193 % N ≤ v * 0x01000193 % N + d * 0x01000193 := by omega
  have hdvd := (Nat.modEq_iff_dvd' hle).mp hmod
  have hpos : 0 < v * 0x01000193 % N + d * 0x01000193 - (v + d) * 0x01000193 % N := by omega
  have hge := Nat.le_of_dvd hpos hdvd
  have h32 : (2 : Nat) ^ 32 = 4294967296 := by norm_num
  omega

/-- On the fold of the specification, for a word of at least 32 bits,
swapping two distinct bytes changes the hash of the two-byte string. -/
theorem spec_fnv1a_fold_swap_ne (w : Nat) (hw : 32 ≤ w) (a b : Fin 256) (hab : a ≠ b) :
    spec_fnv1a_fold w [a, b] ≠ spec_fnv1a_fold w [b, a] := by
  have hN : 2 ^ 32 ≤ 2 ^ w := Nat.pow_le_pow_right (by norm_num) hw
  have h32 : (2 : Nat) ^ 32 = 4294967296 := by norm_num
  have hNpos : 0 < 2 ^ w := by positivity
  have h0 : 0xcbf29ce4 % 2 ^ w = 0xcbf29ce4 := Nat.mod_eq_of_lt (by omega)
  have ha := a.isLt
  have hb := b.isLt
  have hab2 : a.val ≠ b.val := fun h => hab (Fin.ext h)
  have h256 : (256 : Nat) = 2 ^ 8 := by norm_num
  have hxab : a.val ^^^ b.val < 256 :=
    lt_of_lt_of_eq (Nat.xor_lt_two_pow (lt_of_lt_of_eq ha h256) (lt_of_lt_of_eq hb h256))
      h256.symm
  intro heq
  simp only [spec_fnv1a_fold, List.foldl, h0] at heq
  generalize hX : (0xcbf29ce4 ^^^ a.val) * 0x01000193 % 2 ^ w = X at heq
  generalize hY : (0xcbf29ce4 ^^^ b.val) * 0x01000193 % 2 ^ w = Y at heq
  have hXlt : X < 2 ^ w := by rw [← hX]; exact Nat.mod_lt _ hNpos
  have hYlt : Y < 2 ^ w := by rw [← hY]; exact Nat.mod_lt _ hNpos
  have hblt : b.val < 2 ^ w := by omega
  have halt : a.val < 2 ^ w := by omega
  have hcop : Nat.gcd (2 ^ w) 0x01000193 = 1 :=
    Nat.Coprime.pow_left w (by norm_num : Nat.Coprime 2 0x01000193)
  have hcancel : X ^^^ b.val ≡ Y ^^^ a.val [MOD 2 ^ w] :=
    Nat.ModEq.cancel_right_of_coprime hcop heq
  have hxor : X ^^^ b.val = Y ^^^ a.val := by
    have := hcancel
    unfold Nat.ModEq at this
    rwa [Nat.mod_eq_of_lt (Nat.xor_lt_two_pow hXlt hblt),
      Nat.mod_eq_of_lt (Nat.xor_lt_two_pow hYlt halt)] at this
  have hXY : X ^^^ Y = a.val ^^^ b.val := xor_eq_xor_of_cross X Y a.val b.val hxor
  have hXYdiv : X / 256 = Y / 256 := div_256_eq_of_xor_lt X Y (by rw [hXY]; exact hxab)
  have huv : (0xcbf29ce4 ^^^ a.val) ^^^ (0xcbf29ce4 ^^^ b.val) = a.val ^^^ b.val :=
    xor_eq_xor_of_cross _ _ a.val b.val (by
      rw [Nat.xor_assoc, Nat.xor_assoc, Nat.xor_comm a.val b.val])
  have huvdiv := div_256_eq_of_xor_lt _ _ (by rw [huv]; exact hxab)
  have hne : (0xcbf29ce4 ^^^ a.val) ≠ (0xcbf29ce4 ^^^ b.val) := fun h =>
    hab2 (Nat.xor_right_inj.mp h)
  rw [← hX, ← hY] at hXYdiv
  rcases Nat.lt_or_gt_of_ne hne with h | h
  · exact mul_prime_mod_separates (2 ^ w) _ _ hN h (by omega) hXYdiv.symm
  · exact mul_prime_mod_separates (2 ^ w) _ _ hN h (by omega) hXYdiv

/-- Where no byte is sign-extended (unsigned `char`, or both bytes below
`0x80`) and `std::size_t` has at least 32 bits, the hash of a two-byte string
of distinct non-NUL bytes differs from the hash of the swapped string. -/
theorem generate_hash_swap_ne_of_plain (p : platform) (hw : 32 ≤ p.size_t_bits)
    (a b : Fin 256) (ha : a ≠ 0) (hb : b ≠ 0) (hab : a ≠ b)
    (hplain : p.char_signed = true → a.val < 128 ∧ b.val < 128) :
    generate_hash_string p [a, b] ≠ generate_hash_string p [b, a] := by
  have h8 : 8 ≤ p.size_t_bits := by omega
  have e1 : generate_hash_string p [a, b] = some (spec_fnv1a_fold p.size_t_bits [a, b]) := by
    have := generate_hash_eq_fold_of_plain p [a, b] [] h8
      (by intro c hc; simp at hc; rcases hc with h | h <;> subst h <;> assumption)
      (by intro h c hc; simp at hc; rcases hc with h2 | h2 <;> subst h2
          · exact (hplain h).1
          · exact (hplain h).2)
    simpa [generate_hash_string, c_str] using this
  have e2 : generate_hash_string p [b, a] = some (spec_fnv1a_fold p.size_t_bits [b, a]) := by
    have := generate_hash_eq_fold_of_plain p [b, a] [] h8
      (by intro c hc; simp at hc; rcases hc with h | h <;> subst h <;> assumption)
      (by intro h c hc; simp at hc; rcases hc with h2 | h2 <;> subst h2
          · exact (hplain h).2
          · exact (hplain h).1)
    simpa [generate_hash_string, c_str] using this
  rw [e1, e2]
  intro h
  exact spec_fnv1a_fold_swap_ne p.size_t_bits hw a b hab (Option.some.inj h)

end rttr.detail

/-! ## Binary search on an id-sorted container -/

namespace rttr.detail

open data_container type_database

theorem order_by_id_eq_false_iff {D : Type} (l r : data_container D) :
    order_by_id r l = false ↔ l.m_id ≤ r.m_id := by
  simp [order_by_id]

theorem sorted_by_id_iff {D : Type} (vec : List (data_container D)) :
    sorted_by_id vec ↔ vec.Pairwise (fun l r => l.m_id ≤ r.m_id) := by
  unfold sorted_by_id
  simp only [order_by_id_eq_false_iff]

theorem sorted_by_id_getElem? {D : Type} {vec : List (data_container D)}
    (hsorted : sorted_by_id vec) {i j : Nat} {a b : data_container D} (hij : i ≤ j)
    (ha : vec[i]? = some a) (hb : vec[j]? = some b) : a.m_id ≤ b.m_id := by
  rw [sorted_by_id_iff, List.pairwise_iff_getElem] at hsorted
  obtain ⟨hi, rfl⟩ := List.getElem?_eq_some.mp ha
  obtain ⟨hj, rfl⟩ := List.getElem?_eq_some.mp hb
  rcases Nat.lt_or_eq_of_le hij with h | h
  · exact hsorted i j hi hj h
  · subst h; exact le_refl _

/-- The binary search keeps its window invariant: everything left of the
result is ordered before `id`, nothing from the result on is. -/
theorem lower_bound_loop_spec {D : Type} (vec : List (data_container D)) (id : Nat)
    (hsorted : sorted_by_id vec) :
    ∀ (fuel first count : Nat), count ≤ fuel → first + count ≤ vec.length →
      (∀ i e, i < first → vec[i]? = some e → e.m_id < id) →
      (∀ i e, first + count ≤ i → vec[i]? = some e → id ≤ e.m_id) →
      (∀ i e, i < lower_bound_loop vec id fuel first count → vec[i]? = some e → e.m_id < id) ∧
      (∀ i e, lower_bound_loop vec id fuel first count ≤ i → vec[i]? = some e → id ≤ e.m_id) ∧
      lower_bound_loop vec id fuel first count ≤ vec.length := by
  intro fuel
  induction fuel with
  | zero =>
    intro first count hc hlen hlo hhi
    have h0 : count = 0 := by omega
    subst h0
    simp only [lower_bound_loop]
    exact ⟨hlo, fun i e hi he => hhi i e (by omega) he, by omega⟩
  | succ fuel ih =>
    intro first count hc hlen hlo hhi
    by_cases h0 : count = 0
    · subst h0
      simp only [lower_bound_loop, if_true]
      exact ⟨hlo, fun i e hi he => hhi i e (by omega) he, by omega⟩
    · have hstep : count / 2 < count := Nat.div_lt_self (by omega) (by norm_num)
      have hmid : first + count / 2 < vec.length := by omega
      have hget : vec[first + count / 2]? = some vec[first + count / 2] :=
        List.getElem?_eq_getElem hmid
      simp only [lower_bound_loop, h0, if_false, hget]
      by_cases hlt : order_by_id_right vec[first + count / 2] id = true
      · simp only [hlt, if_true]
        have hlt2 : (vec[first + count / 2]).m_id < id := by
          simpa [order_by_id_right] using hlt
        apply ih
        · omega
        · omega
        · intro i e hi he
          have := sorted_by_id_getElem? hsorted (by omega : i ≤ first + count / 2) he hget
          exact lt_of_le_of_lt this hlt2
        · intro i e hi he
          exact hhi i e (by omega) he
      · have hf : order_by_id_right vec[first + count / 2] id = false := by
          simpa using hlt
        simp only [hf]
        have hge : id ≤ (vec[first + count / 2]).m_id := by
          simpa [order_by_id_right] using hf
        apply ih
        · omega
        · omega
        · exact hlo
        · intro i e hi he
          have := sorted_by_id_getElem? hsorted (by omega : first + count / 2 ≤ i) hget he
          exact le_trans hge this

theorem upper_bound_loop_spec {D : Type} (vec : List (data_container D)) (id : Nat)
    (hsorted : sorted_by_id vec) :
    ∀ (fuel first count : Nat), count ≤ fuel → first + count ≤ vec.length →
      (∀ i e, i < first → vec[i]? = some e → e.m_id ≤ id) →
      (∀ i e, first + count ≤ i → vec[i]? = some e → id < e.m_id) →
      (∀ i e, i < upper_bound_loop vec id fuel first count → vec[i]? = some e → e.m_id ≤ id) ∧
      (∀ i e, upper_bound_loop vec id fuel first count ≤ i → vec[i]? = some e → id < e.m_id) ∧
      upper_bound_loop vec id fuel first count ≤ vec.length := by
  intro fuel
  induction fuel with
  | zero =>
    intro first count hc hlen hlo hhi
    have h0 : count = 0 := by omega
    subst h0
    simp only [upper_bound_loop]
    exact ⟨hlo, fun i e hi he => hhi i e (by omega) he, by omega⟩
  | succ fuel ih =>
    intro first count hc hlen hlo hhi
    by_cases h0 : count = 0
    · subst h0
      simp only [upper_bound_loop, if_true]
      exact ⟨hlo, fun i e hi he => hhi i e (by omega) he, by omega⟩
    · have hstep : count / 2 < count := Nat.div_lt_self (by omega) (by norm_num)
      have hmid : first + count / 2 < vec.length := by omega
      have hget : vec[first + count / 2]? = some vec[first + count / 2] :=
        List.getElem?_eq_getElem hmid
      simp only [upper_bound_loop, h0, if_false, hget]
      by_cases hlt : order_by_id_left id vec[first + count / 2] = true
      · simp only [hlt, if_true]
        have hlt2 : id < (vec[first + count / 2]).m_id := by
          simpa [order_by_id_left] using hlt
        apply ih
        · omega
        · omega
        · exact hlo
        · intro i e hi he
          have := sorted_by_id_getElem? hsorted (by omega : first + count / 2 ≤ i) hget he
          exact lt_of_lt_of_le hlt2 this
      · have hf : order_by_id_left id vec[first + count / 2] = false := by
          simpa using hlt
        simp only [hf]
        have hge : (vec[first + count / 2]).m_id ≤ id := by
          simpa [order_by_id_left] using hf
        apply ih
        · omega
        · omega
        · intro i e hi he
          have := sorted_by_id_getElem? hsorted (by omega : i ≤ first + count / 2) he hget
          exact le_trans this hge
        · intro i e hi he
          exact hhi i e (by omega) he

/-- A position that separates the entries satisfying `P` (before it) from
the others (from it on) cuts the list into the two filters. -/
theorem take_eq_filter_of_partition {α : Type} (l : List α) (P : α → Bool) (r : Nat)
    (hlo : ∀ i e, i < r → l[i]? = some e → P e = true)
    (hhi : ∀ i e, r ≤ i → l[i]? = some e → P e = false) :
    l.take r = l.filter P := by
  have h1 : (l.take r).filter P = l.take r := by
    rw [List.filter_eq_self]
    intro a ha
    obtain ⟨i, hi⟩ := List.mem_iff_getElem?.mp ha
    have hir : i < r := by
      by_contra hcon
      have hlen : (l.take r).length ≤ i := by
        rw [List.length_take]; omega
      rw [List.getElem?_eq_none hlen] at hi
      exact Option.noConfusion hi
    rw [List.getElem?_take_of_lt hir] at hi
    exact hlo i a hir hi
  have h2 : (l.drop r).filter P = [] := by
    rw [List.filter_eq_nil_iff]
    intro a ha
    obtain ⟨i, hi⟩ := List.mem_iff_getElem?.mp ha
    rw [List.getElem?_drop] at hi
    have := hhi (r + i) a (by omega) hi
    simp [this]
  conv_rhs => rw [← List.take_append_drop r l, List.filter_append, h1, h2, List.append_nil]

theorem drop_eq_filter_of_partition {α : Type} (l : List α) (Q : α → Bool) (r : Nat)
    (hlo : ∀ i e, i < r → l[i]? = some e → Q e = false)
    (hhi : ∀ i e, r ≤ i → l[i]? = some e → Q e = true) :
    l.drop r = l.filter Q := by
  have h1 : (l.take r).filter Q = [] := by
    rw [List.filter_eq_nil_iff]
    intro a ha
    obtain ⟨i, hi⟩ := List.mem_iff_getElem?.mp ha
    have hir : i < r := by
      by_contra hcon
      have hlen : (l.take r).length ≤ i := by
        rw [List.length_take]; omega
      rw [List.getElem?_eq_none hlen] at hi
      exact Option.noConfusion hi
    rw [List.getElem?_take_of_lt hir] at hi
    have := hlo i a hir hi
    simp [this]
  have h2 : (l.drop r).filter Q = l.drop r := by
    rw [List.filter_eq_self]
    intro a ha
    obtain ⟨i, hi⟩ := List.mem_iff_getElem?.mp ha
    rw [List.getElem?_drop] at hi
    exact hhi (r + i) a (by omega) hi
  conv_rhs => rw [← List.take_append_drop r l, List.filter_append, h1, h2, List.nil_append]

theorem lower_bound_spec {D : Type} (vec : List (data_container D)) (id : Nat)
    (hsorted : sorted_by_id vec) :
    (∀ i e, i < lower_bound vec id → vec[i]? = some e → e.m_id < id) ∧
    (∀ i e, lower_bound vec id ≤ i → vec[i]? = some e → id ≤ e.m_id) ∧
    lower_bound vec id ≤ vec.length := by
  unfold lower_bound
  apply lower_bound_loop_spec vec id hsorted vec.length 0 vec.length (le_refl _) (by omega)
  · intro i e hi; omega
  · intro i e hi he
    rw [List.getElem?_eq_none (by omega)] at he
    exact Option.noConfusion he

theorem upper_bound_spec {D : Type} (vec : List (data_container D)) (id : Nat)
    (hsorted : sorted_by_id vec) :
    (∀ i e, i < upper_bound vec id → vec[i]? = some e → e.m_id ≤ id) ∧
    (∀ i e, upper_bound vec id ≤ i → vec[i]? = some e → id < e.m_id) ∧
    upper_bound vec id ≤ vec.length := by
  unfold upper_bound
  apply upper_bound_loop_spec vec id hsorted vec.length 0 vec.length (le_refl _) (by omega)
  · intro i e hi; omega
  · intro i e hi he
    rw [List.getElem?_eq_none (by omega)] at he
    exact Option.noConfusion he

/-- On a sorted container the binary search cuts off exactly the entries
ordered before `id`. -/
theorem take_lower_bound {D : Type} (vec : List (data_container D)) (id : Nat)
    (hsorted : sorted_by_id vec) :
    vec.take (lower_bound vec id) = vec.filter (fun e => decide (e.m_id < id)) := by
  obtain ⟨h1, h2, _⟩ := lower_bound_spec vec id hsorted
  apply take_eq_filter_of_partition
  · intro i e hi he
    simpa using h1 i e hi he
  · intro i e hi he
    simpa using h2 i e hi he

theorem drop_lower_bound {D : Type} (vec : List (data_container D)) (id : Nat)
    (hsorted : sorted_by_id vec) :
    vec.drop (lower_bound vec id) = vec.filter (fun e => decide (id ≤ e.m_id)) := by
  obtain ⟨h1, h2, _⟩ := lower_bound_spec vec id hsorted
  apply drop_eq_filter_of_partition
  · intro i e hi he
    simpa using h1 i e hi he
  · intro i e hi he
    simpa using h2 i e hi he

theorem take_upper_bound {D : Type} (vec : List (data_container D)) (id : Nat)
    (hsorted : sorted_by_id vec) :
    vec.take (upper_bound vec id) = vec.filter (fun e => decide (e.m_id ≤ id)) := by
  obtain ⟨h1, h2, _⟩ := upper_bound_spec vec id hsorted
  apply take_eq_filter_of_partition
  · intro i e hi he
    simpa using h1 i e hi he
  · intro i e hi he
    simpa using h2 i e hi he

theorem drop_upper_bound {D : Type} (vec : List (data_container D)) (id : Nat)
    (hsorted : sorted_by_id vec) :
    vec.drop (upper_bound vec id) = vec.filter (fun e => decide (id < e.m_id)) := by
  obtain ⟨h1, h2, _⟩ := upper_bound_spec vec id hsorted
  apply drop_eq_filter_of_partition
  · intro i e hi he
    simpa using h1 i e hi he
  · intro i e hi he
    simpa using h2 i e hi he

/-! ## Runs of equal ids, insertion and lookup on a sorted container -/

theorem sorted_by_id_cons {D : Type} (e : data_container D) (vec : List (data_container D)) :
    sorted_by_id (e :: vec) ↔ (∀ x ∈ vec, e.m_id ≤ x.m_id) ∧ sorted_by_id vec := by
  simp only [sorted_by_id_iff, List.pairwise_cons]

theorem filter_ge_eq_run_append {D : Type} (vec : List (data_container D)) (id : Nat)
    (hsorted : sorted_by_id vec) :
    vec.filter (fun e => decide (id ≤ e.m_id)) =
      vec.filter (fun e => decide (e.m_id = id)) ++ vec.filter (fun e => decide (id < e.m_id)) := by
  induction vec with
  | nil => rfl
  | cons e vec ih =>
    rw [sorted_by_id_cons] at hsorted
    have ih2 := ih hsorted.2
    rcases Nat.lt_trichotomy e.m_id id with h | h | h
    · have h1 : ¬ id ≤ e.m_id := by omega
      have h2 : ¬ e.m_id = id := by omega
      have h3 : ¬ id < e.m_id := by omega
      simp only [List.filter_cons, h1, h2, h3, decide_False, Bool.false_eq_true, if_false]
      exact ih2
    · subst h
      simp only [List.filter_cons, le_refl, lt_irrefl, decide_True, decide_False,
        Bool.false_eq_true, if_true, if_false, List.cons_append]
      rw [ih2]
    · have h1 : id ≤ e.m_id := by omega
      have h2 : ¬ e.m_id = id := by omega
      have hnil : vec.filter (fun x => decide (x.m_id = id)) = [] := by
        rw [List.filter_eq_nil_iff]
        intro x hx
        have := hsorted.1 x hx
        have hne : ¬ x.m_id = id := by omega
        simp [hne]
      simp only [List.filter_cons, h1, h2, h, decide_True, decide_False, Bool.false_eq_true,
        if_true, if_false]
      rw [ih2, hnil, List.nil_append, List.nil_append]

theorem length_filter_le_eq {D : Type} (vec : List (data_container D)) (id : Nat) :
    (vec.filter (fun e => decide (e.m_id ≤ id))).length =
      (vec.filter (fun e => decide (e.m_id < id))).length +
      (vec.filter (fun e => decide (e.m_id = id))).length := by
  induction vec with
  | nil => rfl
  | cons e vec ih =>
    rcases Nat.lt_trichotomy e.m_id id with h | h | h
    · have h1 : e.m_id ≤ id := by omega
      have h2 : ¬ e.m_id = id := by omega
      simp only [List.filter_cons, h1, h2, h, decide_True, decide_False, Bool.false_eq_true,
        if_true, if_false, List.length_cons]
      omega
    · subst h
      simp only [List.filter_cons, le_refl, lt_irrefl, decide_True, decide_False,
        Bool.false_eq_true, if_true, if_false, List.length_cons]
      omega
    · have h1 : ¬ e.m_id ≤ id := by omega
      have h2 : ¬ e.m_id = id := by omega
      have h3 : ¬ e.m_id < id := by omega
      simp only [List.filter_cons, h1, h2, h3, decide_False, Bool.false_eq_true, if_false]
      exact ih

theorem lower_bound_eq_length {D : Type} (vec : List (data_container D)) (id : Nat)
    (hsorted : sorted_by_id vec) :
    lower_bound vec id = (vec.filter (fun e => decide (e.m_id < id))).length := by
  have h := congrArg List.length (take_lower_bound vec id hsorted)
  have hle := (lower_bound_spec vec id hsorted).2.2
  rw [List.length_take] at h
  omega

theorem upper_bound_eq_length {D : Type} (vec : List (data_container D)) (id : Nat)
    (hsorted : sorted_by_id vec) :
    upper_bound vec id = (vec.filter (fun e => decide (e.m_id ≤ id))).length := by
  have h := congrArg List.length (take_upper_bound vec id hsorted)
  have hle := (upper_bound_spec vec id hsorted).2.2
  rw [List.length_take] at h
  omega

/-- On a sorted container the two binary searches delimit exactly the
entries whose key is `id`, in their stored order. -/
theorem equal_range_eq_filter {D : Type} (vec : List (data_container D)) (id : Nat)
    (hsorted : sorted_by_id vec) :
    equal_range vec id = vec.filter (fun e => decide (e.m_id = id)) := by
  unfold equal_range
  rw [drop_lower_bound vec id hsorted, filter_ge_eq_run_append vec id hsorted]
  apply List.take_left'
  rw [upper_bound_eq_length vec id hsorted, lower_bound_eq_length vec id hsorted,
    length_filter_le_eq]
  omega

theorem insert_ordered_at_upper_bound {D : Type} (vec : List (data_container D))
    (item : data_container D) (hsorted : sorted_by_id vec) :
    insert_ordered .at_upper_bound vec item =
      vec.filter (fun e => decide (e.m_id ≤ item.m_id)) ++
        item :: vec.filter (fun e => decide (item.m_id < e.m_id)) := by
  unfold insert_ordered insert_index
  rw [take_upper_bound vec _ hsorted, drop_upper_bound vec _ hsorted]

theorem insert_ordered_at_lower_bound {D : Type} (vec : List (data_container D))
    (item : data_container D) (hsorted : sorted_by_id vec) :
    insert_ordered .at_lower_bound vec item =
      vec.filter (fun e => decide (e.m_id < item.m_id)) ++
        item :: vec.filter (fun e => decide (item.m_id ≤ e.m_id)) := by
  unfold insert_ordered insert_index
  rw [take_lower_bound vec _ hsorted, drop_lower_bound vec _ hsorted]

theorem sorted_eq_filter_le_append {D : Type} (vec : List (data_container D)) (id : Nat)
    (hsorted : sorted_by_id vec) :
    vec = vec.filter (fun e => decide (e.m_id ≤ id)) ++
      vec.filter (fun e => decide (id < e.m_id)) := by
  conv_lhs => rw [← List.take_append_drop (upper_bound vec id) vec]
  rw [take_upper_bound vec _ hsorted, drop_upper_bound vec _ hsorted]

theorem sorted_eq_filter_lt_append {D : Type} (vec : List (data_container D)) (id : Nat)
    (hsorted : sorted_by_id vec) :
    vec = vec.filter (fun e => decide (e.m_id < id)) ++
      vec.filter (fun e => decide (id ≤ e.m_id)) := by
  conv_lhs => rw [← List.take_append_drop (lower_bound vec id) vec]
  rw [take_lower_bound vec _ hsorted, drop_lower_bound vec _ hsorted]

/-- Insertion keeps the container sorted, at either end of the run. -/
theorem sorted_by_id_insert_ordered {D : Type} (pos : insert_position)
    (vec : List (data_container D)) (item : data_container D) (hsorted : sorted_by_id vec) :
    sorted_by_id (insert_ordered pos vec item) := by
  have hp := (sorted_by_id_iff vec).mp hsorted
  cases pos with
  | at_upper_bound =>
    rw [insert_ordered_at_upper_bound vec item hsorted, sorted_by_id_iff, List.pairwise_append]
    refine ⟨hp.filter _, ?_, ?_⟩
    · rw [List.pairwise_cons]
      refine ⟨?_, hp.filter _⟩
      intro x hx
      have h2 : item.m_id < x.m_id := by simpa using (List.mem_filter.mp hx).2
      exact Nat.le_of_lt h2
    · intro a ha b hb
      have ha2 : a.m_id ≤ item.m_id := by simpa using (List.mem_filter.mp ha).2
      rcases List.mem_cons.mp hb with h | h
      · subst h; exact ha2
      · have hb2 : item.m_id < b.m_id := by simpa using (List.mem_filter.mp h).2
        exact le_trans ha2 (Nat.le_of_lt hb2)
  | at_lower_bound =>
    rw [insert_ordered_at_lower_bound vec item hsorted, sorted_by_id_iff, List.pairwise_append]
    refine ⟨hp.filter _, ?_, ?_⟩
    · rw [List.pairwise_cons]
      refine ⟨?_, hp.filter _⟩
      intro x hx
      simpa using (List.mem_filter.mp hx).2
    · intro a ha b hb
      have ha2 : a.m_id < item.m_id := by simpa using (List.mem_filter.mp ha).2
      rcases List.mem_cons.mp hb with h | h
      · subst h; exact Nat.le_of_lt ha2
      · have hb2 : item.m_id ≤ b.m_id := by simpa using (List.mem_filter.mp h).2
        exact le_trans (Nat.le_of_lt ha2) hb2

/-- Insertion leaves the run of every other id as it was. -/
theorem filter_eq_insert_ordered_of_ne {D : Type} (pos : insert_position)
    (vec : List (data_container D)) (item : data_container D) (id : Nat)
    (hsorted : sorted_by_id vec) (hne : item.m_id ≠ id) :
    (insert_ordered pos vec item).filter (fun e => decide (e.m_id = id)) =
      vec.filter (fun e => decide (e.m_id = id)) := by
  cases pos with
  | at_upper_bound =>
    rw [insert_ordered_at_upper_bound vec item hsorted]
    have hsplit := congrArg (List.filter (fun e => decide (e.m_id = id)))
      (sorted_eq_filter_le_append vec item.m_id hsorted)
    rw [List.filter_append] at hsplit
    rw [List.filter_append, List.filter_cons]
    simp only [hne, decide_False, Bool.false_eq_true, if_false]
    exact hsplit.symm
  | at_lower_bound =>
    rw [insert_ordered_at_lower_bound vec item hsorted]
    have hsplit := congrArg (List.filter (fun e => decide (e.m_id = id)))
      (sorted_eq_filter_lt_append vec item.m_id hsorted)
    rw [List.filter_append] at hsplit
    rw [List.filter_append, List.filter_cons]
    simp only [hne, decide_False, Bool.false_eq_true, if_false]
    exact hsplit.symm

/-- Insertion behind the run appends the new entry to the run of its id. -/
theorem filter_eq_insert_ordered_at_upper_bound {D : Type} (vec : List (data_container D))
    (item : data_container D) (hsorted : sorted_by_id vec) :
    (insert_ordered .at_upper_bound vec item).filter (fun e => decide (e.m_id = item.m_id)) =
      vec.filter (fun e => decide (e.m_id = item.m_id)) ++ [item] := by
  rw [insert_ordered_at_upper_bound vec item hsorted]
  have hsplit := congrArg (List.filter (fun e => decide (e.m_id = item.m_id)))
    (sorted_eq_filter_le_append vec item.m_id hsorted)
  rw [List.filter_append] at hsplit
  rw [List.filter_append, List.filter_cons]
  have hnil : (vec.filter (fun e => decide (item.m_id < e.m_id))).filter
      (fun e => decide (e.m_id = item.m_id)) = [] := by
    rw [List.filter_eq_nil_iff]
    intro x hx
    have hx2 : item.m_id < x.m_id := by simpa using (List.mem_filter.mp hx).2
    have hne : ¬ x.m_id = item.m_id := by omega
    simp [hne]
  rw [hnil, List.append_nil] at hsplit
  simp only [decide_True, if_true, hnil]
  rw [hsplit]

/-- Insertion in front of the run puts the new entry at the head of the run
of its id. -/
theorem filter_eq_insert_ordered_at_lower_bound {D : Type} (vec : List (data_container D))
    (item : data_container D) (hsorted : sorted_by_id vec) :
    (insert_ordered .at_lower_bound vec item).filter (fun e => decide (e.m_id = item.m_id)) =
      item :: vec.filter (fun e => decide (e.m_id = item.m_id)) := by
  rw [insert_ordered_at_lower_bound vec item hsorted]
  have hsplit := congrArg (List.filter (fun e => decide (e.m_id = item.m_id)))
    (sorted_eq_filter_lt_append vec item.m_id hsorted)
  rw [List.filter_append] at hsplit
  rw [List.filter_append, List.filter_cons]
  have hnil : (vec.filter (fun e => decide (e.m_id < item.m_id))).filter
      (fun e => decide (e.m_id = item.m_id)) = [] := by
    rw [List.filter_eq_nil_iff]
    intro x hx
    have hx2 : x.m_id < item.m_id := by simpa using (List.mem_filter.mp hx).2
    have hne : ¬ x.m_id = item.m_id := by omega
    simp [hne]
  rw [hnil, List.nil_append] at hsplit
  simp only [decide_True, if_true, hnil, List.nil_append]
  rw [hsplit]

/-- The entry the binary search lands on is the head of the run of `id`
followed by the entries ordered after `id`. -/
theorem getElem?_lower_bound {D : Type} (vec : List (data_container D)) (id : Nat)
    (hsorted : sorted_by_id vec) :
    vec[lower_bound vec id]? =
      (vec.filter (fun e => decide (e.m_id = id)) ++
        vec.filter (fun e => decide (id < e.m_id))).head? := by
  rw [← filter_ge_eq_run_append vec id hsorted, ← drop_lower_bound vec id hsorted,
    List.head?_eq_getElem?, List.getElem?_drop, Nat.add_zero]

/-- On a sorted container the lookup by bare id returns the payload of the
first entry stored under `id`, and absence when there is none. -/
theorem get_item_by_type_eq {D : Type} (id : Nat) (vec : List (data_container D))
    (hsorted : sorted_by_id vec) :
    get_item_by_type id vec =
      ((vec.filter (fun e => decide (e.m_id = id))).head?).map (fun e => e.m_data) := by
  unfold get_item_by_type
  rw [getElem?_lower_bound vec id hsorted]
  cases hB : vec.filter (fun e => decide (e.m_id = id)) with
  | nil =>
    cases hC : vec.filter (fun e => decide (id < e.m_id)) with
    | nil => simp
    | cons c C =>
      have hc : c ∈ vec.filter (fun e => decide (id < e.m_id)) := by
        rw [hC]; exact List.mem_cons_self _ _
      have hc2 : id < c.m_id := by simpa using (List.mem_filter.mp hc).2
      have hne : ¬ c.m_id = id := by omega
      simp [hne]
  | cons b B =>
    have hb : b ∈ vec.filter (fun e => decide (e.m_id = id)) := by
      rw [hB]; exact List.mem_cons_self _ _
    have hb2 : b.m_id = id := by simpa using (List.mem_filter.mp hb).2
    simp [hb2]

/-- A hit of the lookup comes from an entry stored under that id (no
ordering assumption is needed for this direction). -/
theorem get_item_by_type_some_mem {D : Type} (id : Nat) (vec : List (data_container D))
    (d : D) (h : get_item_by_type id vec = some d) :
    ∃ e ∈ vec, e.m_id = id ∧ e.m_data = d := by
  unfold get_item_by_type at h
  cases hget : vec[lower_bound vec id]? with
  | none => rw [hget] at h; exact Option.noConfusion h
  | some item =>
    rw [hget] at h
    by_cases hid : item.m_id = id
    · simp only [hid, if_true] at h
      exact ⟨item, List.getElem?_mem hget, hid, Option.some.inj h⟩
    · simp only [hid, if_false] at h
      exact Option.noConfusion h

theorem get_item_by_type_eq_none_iff {D : Type} (id : Nat) (vec : List (data_container D))
    (hsorted : sorted_by_id vec) :
    get_item_by_type id vec = none ↔ ∀ e ∈ vec, e.m_id ≠ id := by
  constructor
  · intro h e he hid
    rw [get_item_by_type_eq id vec hsorted] at h
    have hmem : e ∈ vec.filter (fun e => decide (e.m_id = id)) :=
      List.mem_filter.mpr ⟨he, by simpa using hid⟩
    cases hB : vec.filter (fun e => decide (e.m_id = id)) with
    | nil => rw [hB] at hmem; exact List.not_mem_nil _ hmem
    | cons b B => rw [hB] at h; simp at h
  · intro h
    cases hres : get_item_by_type id vec with
    | none => rfl
    | some d =>
      obtain ⟨e, he, hid, _⟩ := get_item_by_type_some_mem id vec d hres
      exact absurd hid (h e he)

/-! ## Strict order, and insert-or-update of the single entry of an id -/

theorem strictly_sorted_by_id_iff {D : Type} (vec : List (data_container D)) :
    strictly_sorted_by_id vec ↔ vec.Pairwise (fun l r => l.m_id < r.m_id) := by
  unfold strictly_sorted_by_id
  have htrans : IsTrans (data_container D) (fun l r => order_by_id l r = true) :=
    ⟨fun a b c hab hbc => by
      simp only [order_by_id, decide_eq_true_eq] at hab hbc ⊢
      omega⟩
  rw [List.chain'_iff_pairwise]
  simp only [order_by_id, decide_eq_true_eq]

theorem strictly_sorted_by_id_iff_map {D : Type} (vec : List (data_container D)) :
    strictly_sorted_by_id vec ↔ (vec.map (fun e => e.m_id)).Pairwise (fun a b => a < b) := by
  rw [strictly_sorted_by_id_iff, List.pairwise_map]

theorem sorted_of_strictly_sorted {D : Type} (vec : List (data_container D))
    (h : strictly_sorted_by_id vec) : sorted_by_id vec := by
  rw [strictly_sorted_by_id_iff] at h
  rw [sorted_by_id_iff]
  exact h.imp (fun hlt => Nat.le_of_lt hlt)

/-- Overwriting the payload of an entry in place leaves the ids as they were. -/
theorem map_m_id_set {D : Type} (vec : List (data_container D)) (pos : Nat)
    (item : data_container D) (d : D) (hget : vec[pos]? = some item) :
    (vec.set pos ⟨item.m_id, d⟩).map (fun e => e.m_id) = vec.map (fun e => e.m_id) := by
  apply List.ext_getElem?
  intro j
  rw [List.getElem?_map, List.getElem?_map, List.getElem?_set]
  by_cases hj : pos = j
  · subst hj
    have hlt : pos < vec.length := (List.getElem?_eq_some.mp hget).1
    simp [hlt, hget]
  · simp [hj]

/-- Inserting an entry whose id is not yet stored keeps a strict order
strict, at either position. -/
theorem strictly_sorted_insert_ordered {D : Type} (pos : insert_position)
    (vec : List (data_container D)) (item : data_container D)
    (hstrict : strictly_sorted_by_id vec) (hfresh : ∀ e ∈ vec, e.m_id ≠ item.m_id) :
    strictly_sorted_by_id (insert_ordered pos vec item) := by
  have hsorted := sorted_of_strictly_sorted vec hstrict
  have hp := (strictly_sorted_by_id_iff vec).mp hstrict
  cases pos with
  | at_upper_bound =>
    rw [insert_ordered_at_upper_bound vec item hsorted, strictly_sorted_by_id_iff,
      List.pairwise_append]
    refine ⟨hp.filter _, ?_, ?_⟩
    · rw [List.pairwise_cons]
      refine ⟨?_, hp.filter _⟩
      intro x hx
      simpa using (List.mem_filter.mp hx).2
    · intro a ha b hb
      have ha1 := List.mem_filter.mp ha
      have ha2 : a.m_id ≤ item.m_id := by simpa using ha1.2
      have ha3 : a.m_id < item.m_id := lt_of_le_of_ne ha2 (hfresh a ha1.1)
      rcases List.mem_cons.mp hb with h | h
      · subst h; exact ha3
      · have hb2 : item.m_id < b.m_id := by simpa using (List.mem_filter.mp h).2
        exact lt_trans ha3 hb2
  | at_lower_bound =>
    rw [insert_ordered_at_lower_bound vec item hsorted, strictly_sorted_by_id_iff,
      List.pairwise_append]
    refine ⟨hp.filter _, ?_, ?_⟩
    · rw [List.pairwise_cons]
      refine ⟨?_, hp.filter _⟩
      intro x hx
      have hx1 := List.mem_filter.mp hx
      have hx2 : item.m_id ≤ x.m_id := by simpa using hx1.2
      exact lt_of_le_of_ne hx2 (fun h => hfresh x hx1.1 h.symm)
    · intro a ha b hb
      have ha2 : a.m_id < item.m_id := by simpa using (List.mem_filter.mp ha).2
      rcases List.mem_cons.mp hb with h | h
      · subst h; exact ha2
      · have hb2 : item.m_id ≤ b.m_id := by simpa using (List.mem_filter.mp h).2
        exact lt_of_lt_of_le ha2 hb2

/-- The two ways `upsert_item_type` can go on a sorted container: the id is
stored and its entry is overwritten in place, or it is not stored and a new
entry is inserted. -/
theorem upsert_item_type_cases {D : Type} (pos : insert_position) (id : Nat)
    (f : Option D → D) (vec : List (data_container D)) (hsorted : sorted_by_id vec) :
    (∃ item, vec[lower_bound vec id]? = some item ∧ item.m_id = id ∧
        get_item_by_type id vec = some item.m_data ∧
        upsert_item_type pos id f vec =
          vec.set (lower_bound vec id) ⟨item.m_id, f (some item.m_data)⟩) ∨
    ((∀ e ∈ vec, e.m_id ≠ id) ∧ get_item_by_type id vec = none ∧
        upsert_item_type pos id f vec = insert_ordered pos vec ⟨id, f none⟩) := by
  cases hget : vec[lower_bound vec id]? with
  | none =>
    right
    have hnone : get_item_by_type id vec = none := by
      simp [get_item_by_type, hget]
    exact ⟨(get_item_by_type_eq_none_iff id vec hsorted).mp hnone, hnone, by
      simp [upsert_item_type, hget]⟩
  | some item =>
    by_cases hid : item.m_id = id
    · left
      refine ⟨item, rfl, hid, ?_, ?_⟩
      · simp [get_item_by_type, hget, hid]
      · simp [upsert_item_type, hget, hid]
    · right
      have hnone : get_item_by_type id vec = none := by
        simp [get_item_by_type, hget, hid]
      exact ⟨(get_item_by_type_eq_none_iff id vec hsorted).mp hnone, hnone, by
        simp [upsert_item_type, hget, hid]⟩

theorem strictly_sorted_upsert_item_type {D : Type} (pos : insert_position) (id : Nat)
    (f : Option D → D) (vec : List (data_container D)) (hstrict : strictly_sorted_by_id vec) :
    strictly_sorted_by_id (upsert_item_type pos id f vec) := by
  have hsorted := sorted_of_strictly_sorted vec hstrict
  rcases upsert_item_type_cases pos id f vec hsorted with
    ⟨item, hget, _, _, heq⟩ | ⟨hfresh, _, heq⟩
  · rw [heq, strictly_sorted_by_id_iff_map, map_m_id_set vec _ item _ hget,
      ← strictly_sorted_by_id_iff_map]
    exact hstrict
  · rw [heq]
    exact strictly_sorted_insert_ordered pos vec _ hstrict hfresh

theorem mem_insert_ordered {D : Type} (pos : insert_position) (vec : List (data_container D))
    (item e : data_container D) :
    e ∈ insert_ordered pos vec item ↔ e ∈ vec ∨ e = item := by
  unfold insert_ordered
  rw [List.mem_append, List.mem_cons]
  constructor
  · rintro (h | h | h)
    · exact Or.inl (List.mem_of_mem_take h)
    · exact Or.inr h
    · exact Or.inl (List.mem_of_mem_drop h)
  · rintro (h | h)
    · rw [← List.take_append_drop (insert_index pos vec item.m_id) vec, List.mem_append] at h
      rcases h with h | h
      · exact Or.inl h
      · exact Or.inr (Or.inr h)
    · exact Or.inr (Or.inl h)

theorem mem_upsert_item_type {D : Type} (pos : insert_position) (id : Nat) (f : Option D → D)
    (vec : List (data_container D)) (e : data_container D)
    (h : e ∈ upsert_item_type pos id f vec) : e ∈ vec ∨ e.m_id = id := by
  unfold upsert_item_type at h
  cases hget : vec[lower_bound vec id]? with
  | none =>
    rw [hget] at h
    rcases (mem_insert_ordered pos vec _ e).mp h with h2 | h2
    · exact Or.inl h2
    · exact Or.inr (by rw [h2])
  | some item =>
    rw [hget] at h
    by_cases hid : item.m_id = id
    · simp only [hid, if_true] at h
      rcases List.mem_or_eq_of_mem_set h with h2 | h2
      · exact Or.inl h2
      · exact Or.inr (by rw [h2])
    · simp only [hid, if_false] at h
      rcases (mem_insert_ordered pos vec _ e).mp h with h2 | h2
      · exact Or.inl h2
      · exact Or.inr (by rw [h2])

theorem registered_from_append (pos : insert_position) (db : type_database)
    (l₁ l₂ : List registration) :
    registered_from pos db (l₁ ++ l₂) = registered_from pos (registered_from pos db l₁) l₂ := by
  unfold registered_from
  rw [List.foldl_append]

theorem registered_append (pos : insert_position) (l₁ l₂ : List registration) :
    registered pos (l₁ ++ l₂) = registered_from pos (registered pos l₁) l₂ :=
  registered_from_append pos _ l₁ l₂

theorem registered_from_cons (pos : insert_position) (db : type_database) (r : registration)
    (l : List registration) :
    registered_from pos db (r :: l) = registered_from pos (r.apply pos db) l := rfl

/-- The converter container holds the entries it started with and one entry
per `register_converter` call, nothing else. -/
theorem mem_converter_list_registered_from (pos : insert_position) (calls : List registration)
    (db : type_database)
    (e : data_container type_converter_base) :
    e ∈ (registered_from pos db calls).m_type_converter_list ↔
      e ∈ db.m_type_converter_list ∨ registration.converter e.m_id e.m_data ∈ calls := by
  induction calls generalizing db with
  | nil => simp [registered_from]
  | cons r calls ih =>
    rw [registered_from_cons, ih]
    cases r with
    | converter t c =>
      simp only [registration.apply, register_converter, register_item_type,
        mem_insert_ordered, List.mem_cons, registration.converter.injEq]
      constructor
      · rintro ((h | h) | h)
        · exact Or.inl h
        · right; left; rw [h]; exact ⟨rfl, rfl⟩
        · exact Or.inr (Or.inr h)
      · rintro (h | ⟨h1, h2⟩ | h)
        · exact Or.inl (Or.inl h)
        · left; right
          cases e
          simp only at h1 h2
          subst h1; subst h2; rfl
        · exact Or.inr h
    | comparator t c => simp [registration.apply, register_comparator]
    | enumeration t d => simp [registration.apply, register_enumeration]
    | metadata t d => simp [registration.apply, register_metadata]

/-- Every id in the comparator container was started with or comes from a
`register_comparator` call for that id. -/
theorem mem_comparator_list_registered_from (pos : insert_position) (calls : List registration)
    (db : type_database)
    (e : data_container type_comparator_base)
    (h : e ∈ (registered_from pos db calls).m_type_comparator_list) :
    e ∈ db.m_type_comparator_list ∨ registration.comparator e.m_id e.m_data ∈ calls := by
  induction calls generalizing db with
  | nil => exact Or.inl h
  | cons r calls ih =>
    rw [registered_from_cons] at h
    rcases ih _ h with h2 | h2
    · cases r with
      | comparator t c =>
        simp only [registration.apply, register_comparator, register_item_type,
          mem_insert_ordered] at h2
        rcases h2 with h3 | h3
        · exact Or.inl h3
        · right; rw [h3]; exact List.mem_cons_self _ _
      | converter t c => exact Or.inl h2
      | enumeration t d => exact Or.inl h2
      | metadata t d => exact Or.inl h2
    · exact Or.inr (List.mem_cons_of_mem _ h2)

/-- Every id in the enumeration container was started with or comes from a
`register_enumeration` call for that id. -/
theorem mem_enumeration_list_registered_from (pos : insert_position) (calls : List registration)
    (db : type_database)
    (e : data_container enumeration_wrapper_base)
    (h : e ∈ (registered_from pos db calls).m_enumeration_list) :
    (∃ e' ∈ db.m_enumeration_list, e'.m_id = e.m_id) ∨
      ∃ d, registration.enumeration e.m_id d ∈ calls := by
  induction calls generalizing db with
  | nil => exact Or.inl ⟨e, h, rfl⟩
  | cons r calls ih =>
    rw [registered_from_cons] at h
    rcases ih _ h with ⟨e', h2, h3⟩ | ⟨d, h2⟩
    · cases r with
      | enumeration t d =>
        simp only [registration.apply, register_enumeration] at h2
        rcases mem_upsert_item_type pos t _ _ e' h2 with h4 | h4
        · exact Or.inl ⟨e', h4, h3⟩
        · right
          refine ⟨d, ?_⟩
          rw [← h3, h4]
          exact List.mem_cons_self _ _
      | converter t c => exact Or.inl ⟨e', h2, h3⟩
      | comparator t c => exact Or.inl ⟨e', h2, h3⟩
      | metadata t d => exact Or.inl ⟨e', h2, h3⟩
    · exact Or.inr ⟨d, List.mem_cons_of_mem _ h2⟩

/-! ## The ordering invariant -/

/-- One registration keeps the converter and comparator containers sorted
and the enumeration and metadata containers strictly sorted. -/
theorem apply_keeps_order (pos : insert_position) (db : type_database) (r : registration)
    (h : sorted_by_id db.m_type_converter_list ∧ sorted_by_id db.m_type_comparator_list ∧
      strictly_sorted_by_id db.m_enumeration_list ∧ strictly_sorted_by_id db.m_metadata_type_list) :
    sorted_by_id (r.apply pos db).m_type_converter_list ∧
    sorted_by_id (r.apply pos db).m_type_comparator_list ∧
    strictly_sorted_by_id (r.apply pos db).m_enumeration_list ∧
    strictly_sorted_by_id (r.apply pos db).m_metadata_type_list := by
  obtain ⟨h1, h2, h3, h4⟩ := h
  cases r with
  | converter t c =>
    exact ⟨sorted_by_id_insert_ordered pos _ _ h1, h2, h3, h4⟩
  | comparator t c =>
    exact ⟨h1, sorted_by_id_insert_ordered pos _ _ h2, h3, h4⟩
  | enumeration t d =>
    exact ⟨h1, h2, strictly_sorted_upsert_item_type pos t (fun _ => d) _ h3, h4⟩
  | metadata t d =>
    exact ⟨h1, h2, h3, strictly_sorted_upsert_item_type pos t (fun old => old.getD [] ++ d) _ h4⟩

theorem registered_from_keeps_order (pos : insert_position) (calls : List registration)
    (db : type_database)
    (h : sorted_by_id db.m_type_converter_list ∧ sorted_by_id db.m_type_comparator_list ∧
      strictly_sorted_by_id db.m_enumeration_list ∧ strictly_sorted_by_id db.m_metadata_type_list) :
    sorted_by_id (registered_from pos db calls).m_type_converter_list ∧
    sorted_by_id (registered_from pos db calls).m_type_comparator_list ∧
    strictly_sorted_by_id (registered_from pos db calls).m_enumeration_list ∧
    strictly_sorted_by_id (registered_from pos db calls).m_metadata_type_list := by
  induction calls generalizing db with
  | nil => exact h
  | cons r calls ih =>
    rw [registered_from_cons]
    exact ih _ (apply_keeps_order pos db r h)

theorem empty_order :
    sorted_by_id type_database.empty.m_type_converter_list ∧
    sorted_by_id type_database.empty.m_type_comparator_list ∧
    strictly_sorted_by_id type_database.empty.m_enumeration_list ∧
    strictly_sorted_by_id type_database.empty.m_metadata_type_list := by
  simp [type_database.empty, sorted_by_id, strictly_sorted_by_id]

/-- The order every registry reached from the empty one keeps, wherever new
entries go within a run. -/
theorem registered_keeps_order (pos : insert_position) (calls : List registration) :
    sorted_by_id (registered pos calls).m_type_converter_list ∧
    sorted_by_id (registered pos calls).m_type_comparator_list ∧
    strictly_sorted_by_id (registered pos calls).m_enumeration_list ∧
    strictly_sorted_by_id (registered pos calls).m_metadata_type_list :=
  registered_from_keeps_order pos calls type_database.empty empty_order

/-- C5: in the registry reached from the empty one by any sequence of
registrations, `get_comparator(T)` returns absence for every `T` for which
`register_comparator` was never called, and `get_enumeration(T)` returns the
empty/invalid view for every `T` for which `register_enumeration` was never
called. Both lookups are total: a miss is the sentinel value. -/
theorem get_absent_of_never_registered (pos : insert_position) (calls : List registration)
    (T : Nat) :
    ((∀ c, registration.comparator T c ∉ calls) →
      get_comparator (registered pos calls) T = none) ∧
    ((∀ d, registration.enumeration T d ∉ calls) →
      get_enumeration (registered pos calls) T = ⟨none⟩) := by
  constructor
  · intro hnever
    cases hres : get_comparator (registered pos calls) T with
    | none => rfl
    | some c =>
      obtain ⟨e, he, hid, _⟩ := get_item_by_type_some_mem T _ c hres
      rcases mem_comparator_list_registered_from pos calls type_database.empty e he with h | h
      · simp [type_database.empty] at h
      · rw [hid] at h
        exact absurd h (hnever _)
  · intro hnever
    unfold get_enumeration
    cases hres : get_item_by_type T (registered pos calls).m_enumeration_list with
    | none => rfl
    | some d =>
      obtain ⟨e, he, hid, _⟩ := get_item_by_type_some_mem T _ d hres
      rcases mem_enumeration_list_registered_from pos calls type_database.empty e he with
        ⟨e', h, _⟩ | ⟨d', h⟩
      · simp [type_database.empty] at h
      · rw [hid] at h
        exact absurd h (hnever _)

theorem get_absent_of_never_registered_witness :
    (∀ c, registration.comparator 7 c ∉
      [registration.comparator 3 ⟨1⟩, .enumeration 7 ⟨2⟩, .comparator 9 ⟨4⟩, .enumeration 3 ⟨5⟩]) ∧
    (∀ d, registration.enumeration 9 d ∉
      [registration.comparator 3 ⟨1⟩, .enumeration 7 ⟨2⟩, .comparator 9 ⟨4⟩, .enumeration 3 ⟨5⟩]) ∧
    get_comparator (registered .at_upper_bound
      [.comparator 3 ⟨1⟩, .enumeration 7 ⟨2⟩, .comparator 9 ⟨4⟩, .enumeration 3 ⟨5⟩]) 7 = none ∧
    get_enumeration (registered .at_upper_bound
      [.comparator 3 ⟨1⟩, .enumeration 7 ⟨2⟩, .comparator 9 ⟨4⟩, .enumeration 3 ⟨5⟩]) 9 = ⟨none⟩ :=
  ⟨by simp, by simp,
    (get_absent_of_never_registered .at_upper_bound
      [.comparator 3 ⟨1⟩, .enumeration 7 ⟨2⟩, .comparator 9 ⟨4⟩, .enumeration 3 ⟨5⟩] 7).1 (by simp),
    (get_absent_of_never_registered .at_upper_bound
      [.comparator 3 ⟨1⟩, .enumeration 7 ⟨2⟩, .comparator 9 ⟨4⟩, .enumeration 3 ⟨5⟩] 9).2 (by simp)⟩

/-! ## Converters -/

/-- On a sorted converter container `get_converter` returns the first entry
of the run of the source id whose target matches. -/
theorem get_converter_eq (db : type_database) (source_type target_type : Nat)
    (hsorted : sorted_by_id db.m_type_converter_list) :
    get_converter db source_type target_type =
      ((db.m_type_converter_list.filter (fun e => decide (e.m_id = source_type))).find?
        (fun item => decide (item.m_data.m_target_type = target_type))).map
          (fun item => item.m_data) := by
  unfold get_converter
  rw [equal_range_eq_filter _ _ hsorted]

theorem sorted_register_converter (pos : insert_position) (db : type_database) (t : Nat)
    (conv : type_converter_base) (hsorted : sorted_by_id db.m_type_converter_list) :
    sorted_by_id (db.register_converter pos t conv).m_type_converter_list :=
  sorted_by_id_insert_ordered pos _ _ hsorted

theorem sorted_converter_list_apply (pos : insert_position) (db : type_database)
    (r : registration) (hsorted : sorted_by_id db.m_type_converter_list) :
    sorted_by_id (r.apply pos db).m_type_converter_list := by
  cases r with
  | converter t conv => exact sorted_register_converter pos db t conv hsorted
  | comparator t x => exact hsorted
  | enumeration t x => exact hsorted
  | metadata t x => exact hsorted

theorem sorted_converter_list_registered_from (pos : insert_position)
    (calls : List registration) (db : type_database)
    (hsorted : sorted_by_id db.m_type_converter_list) :
    sorted_by_id (registered_from pos db calls).m_type_converter_list := by
  induction calls generalizing db with
  | nil => exact hsorted
  | cons r calls ih =>
    rw [registered_from_cons]
    exact ih _ (sorted_converter_list_apply pos db r hsorted)

/-- The run of a source id after `register_converter`: unchanged for another
source, and extended by the new entry, in front or behind, for its own. -/
theorem run_register_converter (pos : insert_position) (db : type_database) (t : Nat)
    (conv : type_converter_base) (id : Nat) (hsorted : sorted_by_id db.m_type_converter_list) :
    (db.register_converter pos t conv).m_type_converter_list.filter
        (fun e => decide (e.m_id = id)) =
      if t = id then
        match pos with
        | .at_lower_bound =>
          ⟨t, conv⟩ :: db.m_type_converter_list.filter (fun e => decide (e.m_id = id))
        | .at_upper_bound =>
          db.m_type_converter_list.filter (fun e => decide (e.m_id = id)) ++ [⟨t, conv⟩]
      else db.m_type_converter_list.filter (fun e => decide (e.m_id = id)) := by
  by_cases h : t = id
  · subst h
    simp only [if_true]
    cases pos with
    | at_lower_bound =>
      exact filter_eq_insert_ordered_at_lower_bound db.m_type_converter_list ⟨t, conv⟩ hsorted
    | at_upper_bound =>
      exact filter_eq_insert_ordered_at_upper_bound db.m_type_converter_list ⟨t, conv⟩ hsorted
  · simp only [h, if_false]
    exact filter_eq_insert_ordered_of_ne pos db.m_type_converter_list ⟨t, conv⟩ id hsorted h

/-- A converter registered for a (source, target) pair that the lookup does
not serve yet is the one the lookup of that pair returns afterwards,
wherever the new entry goes within the run. -/
theorem get_converter_register_converter_new (pos : insert_position) (db : type_database)
    (A : Nat) (conv : type_converter_base) (hsorted : sorted_by_id db.m_type_converter_list)
    (hnew : get_converter db A conv.m_target_type = none) :
    get_converter (db.register_converter pos A conv) A conv.m_target_type = some conv := by
  rw [get_converter_eq _ _ _ hsorted] at hnew
  rw [get_converter_eq _ _ _ (sorted_register_converter pos db A conv hsorted),
    run_register_converter pos db A conv A hsorted]
  simp only [if_true]
  cases pos with
  | at_lower_bound => simp
  | at_upper_bound =>
    simp only [List.find?_append]
    rw [Option.map_eq_none'] at hnew
    rw [hnew]
    simp

/-- Registering a converter with another target, or for another source,
leaves the lookup of a (source, target) pair as it was, wherever the new
entry goes within the run. -/
theorem get_converter_register_converter_other (pos : insert_position) (db : type_database)
    (t A B : Nat) (conv : type_converter_base)
    (hsorted : sorted_by_id db.m_type_converter_list)
    (hother : t = A → conv.m_target_type ≠ B) :
    get_converter (db.register_converter pos t conv) A B = get_converter db A B := by
  rw [get_converter_eq _ _ _ hsorted,
    get_converter_eq _ _ _ (sorted_register_converter pos db t conv hsorted),
    run_register_converter pos db t conv A hsorted]
  by_cases h : t = A
  · have hB : ¬ conv.m_target_type = B := hother h
    simp only [h, if_true]
    cases pos with
    | at_lower_bound => simp [hB]
    | at_upper_bound =>
      simp only [List.find?_append]
      cases (db.m_type_converter_list.filter (fun e => decide (e.m_id = A))).find?
        (fun item => decide (item.m_data.m_target_type = B)) with
      | none => simp [hB]
      | some x => simp
  · simp only [h, if_false]

theorem get_converter_apply_of_other (pos : insert_position) (db : type_database)
    (r : registration) (A B : Nat) (hsorted : sorted_by_id db.m_type_converter_list)
    (hother : ∀ c, r = registration.converter A c → c.m_target_type ≠ B) :
    get_converter (r.apply pos db) A B = get_converter db A B := by
  cases r with
  | converter t conv =>
    apply get_converter_register_converter_other pos db t A B conv hsorted
    intro ht
    exact hother conv (by rw [ht])
  | comparator t x => rfl
  | enumeration t x => rfl
  | metadata t x => rfl

/-- Registrations that are not converters for the pair `(A, B)` leave
`get_converter(A, B)` as it was. -/
theorem get_converter_registered_from_of_other (pos : insert_position)
    (calls : List registration) (db : type_database) (A B : Nat)
    (hsorted : sorted_by_id db.m_type_converter_list)
    (hother : ∀ c, registration.converter A c ∈ calls → c.m_target_type ≠ B) :
    get_converter (registered_from pos db calls) A B = get_converter db A B := by
  induction calls generalizing db with
  | nil => rfl
  | cons r calls ih =>
    rw [registered_from_cons,
      ih _ (sorted_converter_list_apply pos db r hsorted)
        (fun c hc => hother c (List.mem_cons_of_mem _ hc))]
    exact get_converter_apply_of_other pos db r A B hsorted
      (fun c hc => hother c (by rw [hc]; exact List.mem_cons_self _ _))

theorem get_converter_empty (A B : Nat) : get_converter type_database.empty A B = none := by
  simp [get_converter, type_database.empty, equal_range]

/-- With insertion in front of the run, the converter just registered is the
one the lookup returns, in every sorted registry, whatever it already holds. -/
theorem get_converter_register_converter_at_lower_bound (db : type_database) (A : Nat)
    (conv : type_converter_base) (hsorted : sorted_by_id db.m_type_converter_list) :
    get_converter (db.register_converter .at_lower_bound A conv) A conv.m_target_type =
      some conv := by
  rw [get_converter_eq _ _ _ (sorted_register_converter .at_lower_bound db A conv hsorted),
    run_register_converter .at_lower_bound db A conv A hsorted]
  simp

/-- With insertion behind the run, a converter already stored for the same
(source, target) pair keeps being returned: object 0 and not object 1. -/
theorem get_converter_register_converter_at_upper_bound :
    get_converter ((registered .at_upper_bound [.converter 1 ⟨2, 0⟩]).register_converter
      .at_upper_bound 1 ⟨2, 1⟩) 1 2 = some ⟨2, 0⟩ ∧
    get_converter ((registered .at_lower_bound [.converter 1 ⟨2, 0⟩]).register_converter
      .at_lower_bound 1 ⟨2, 1⟩) 1 2 = some ⟨2, 1⟩ := by
  decide

/-- C3 (counterexample): `c1` (object 10, from 1 to 2) and `c2` (object 11,
from 1 to 3) are registered with two other registrations in between, a
converter from 1 to 2 (object 20) and a converter from 1 to 3 (object 21).
Afterwards the two lookups do not return `c1` and `c2`, at either insertion
position: in front of the run `get_converter(1, 2)` returns object 20, behind
the run `get_converter(1, 3)` returns object 21. -/
theorem get_converter_shadowed_by_registration_in_between :
    get_converter (registered .at_lower_bound
      [.converter 1 ⟨2, 10⟩, .converter 1 ⟨2, 20⟩, .converter 1 ⟨3, 21⟩, .converter 1 ⟨3, 11⟩])
      1 2 = some ⟨2, 20⟩ ∧
    get_converter (registered .at_upper_bound
      [.converter 1 ⟨2, 10⟩, .converter 1 ⟨2, 20⟩, .converter 1 ⟨3, 21⟩, .converter 1 ⟨3, 11⟩])
      1 3 = some ⟨3, 21⟩ ∧
    ¬ (get_converter (registered .at_lower_bound
        [.converter 1 ⟨2, 10⟩, .converter 1 ⟨2, 20⟩, .converter 1 ⟨3, 21⟩, .converter 1 ⟨3, 11⟩])
        1 2 = some ⟨2, 10⟩ ∧
      get_converter (registered .at_lower_bound
        [.converter 1 ⟨2, 10⟩, .converter 1 ⟨2, 20⟩, .converter 1 ⟨3, 21⟩, .converter 1 ⟨3, 11⟩])
        1 3 = some ⟨3, 11⟩) ∧
    ¬ (get_converter (registered .at_upper_bound
        [.converter 1 ⟨2, 10⟩, .converter 1 ⟨2, 20⟩, .converter 1 ⟨3, 21⟩, .converter 1 ⟨3, 11⟩])
        1 2 = some ⟨2, 10⟩ ∧
      get_converter (registered .at_upper_bound
        [.converter 1 ⟨2, 10⟩, .converter 1 ⟨2, 20⟩, .converter 1 ⟨3, 21⟩, .converter 1 ⟨3, 11⟩])
        1 3 = some ⟨3, 11⟩) := by
  decide

/-- C3 (amended): for every source id `A` and distinct targets `B1 ≠ B2`,
after `register_converter(A, c1)` with target `B1` and
`register_converter(A, c2)` with target `B2` (the statement is symmetric in
the two converters, which covers either order), with any other registrations
in between, provided `c1` and `c2` are the only converters from `A` to `B1`
and from `A` to `B2` registered so far: `get_converter(A, B1)` returns `c1`
and `get_converter(A, B2)` returns `c2`, wherever new entries go within a
run. -/
theorem get_converter_two_targets (pos : insert_position) (pre mid : List registration)
    (A B1 B2 : Nat) (c1 c2 : type_converter_base)
    (h1 : c1.m_target_type = B1) (h2 : c2.m_target_type = B2) (hne : B1 ≠ B2)
    (honly : ∀ c, registration.converter A c ∈ pre ++ mid →
      c.m_target_type ≠ B1 ∧ c.m_target_type ≠ B2) :
    get_converter
      (registered pos (pre ++ [.converter A c1] ++ mid ++ [.converter A c2])) A B1 = some c1 ∧
    get_converter
      (registered pos (pre ++ [.converter A c1] ++ mid ++ [.converter A c2])) A B2 = some c2 := by
  subst h1; subst h2
  have hpre : ∀ c, registration.converter A c ∈ pre →
      c.m_target_type ≠ c1.m_target_type ∧ c.m_target_type ≠ c2.m_target_type :=
    fun c hc => honly c (List.mem_append.mpr (Or.inl hc))
  have hmid : ∀ c, registration.converter A c ∈ mid →
      c.m_target_type ≠ c1.m_target_type ∧ c.m_target_type ≠ c2.m_target_type :=
    fun c hc => honly c (List.mem_append.mpr (Or.inr hc))
  have hs0 : sorted_by_id (registered pos pre).m_type_converter_list :=
    (registered_keeps_order pos pre).1
  have hs1 := sorted_register_converter pos _ A c1 hs0
  have hs2 := sorted_converter_list_registered_from pos mid _ hs1
  -- the registry before `c1`
  have g01 : get_converter (registered pos pre) A c1.m_target_type = none := by
    unfold registered
    rw [get_converter_registered_from_of_other pos pre _ A _
      (by simp [type_database.empty, sorted_by_id]) (fun c hc => (hpre c hc).1)]
    exact get_converter_empty _ _
  have g02 : get_converter (registered pos pre) A c2.m_target_type = none := by
    unfold registered
    rw [get_converter_registered_from_of_other pos pre _ A _
      (by simp [type_database.empty, sorted_by_id]) (fun c hc => (hpre c hc).2)]
    exact get_converter_empty _ _
  -- after `c1`
  have g11 := get_converter_register_converter_new pos _ A c1 hs0 g01
  have g12 : get_converter ((registered pos pre).register_converter pos A c1) A
      c2.m_target_type = none := by
    rw [get_converter_register_converter_other pos _ A A _ c1 hs0 (fun _ => hne)]
    exact g02
  -- after the registrations in between
  have g21 : get_converter (registered_from pos
      ((registered pos pre).register_converter pos A c1) mid) A c1.m_target_type = some c1 := by
    rw [get_converter_registered_from_of_other pos mid _ A _ hs1 (fun c hc => (hmid c hc).1)]
    exact g11
  have g22 : get_converter (registered_from pos
      ((registered pos pre).register_converter pos A c1) mid) A c2.m_target_type = none := by
    rw [get_converter_registered_from_of_other pos mid _ A _ hs1 (fun c hc => (hmid c hc).2)]
    exact g12
  -- after `c2`
  have e1 : pre ++ [registration.converter A c1] ++ mid ++ [.converter A c2] =
      pre ++ (registration.converter A c1 :: (mid ++ [.converter A c2])) := by
    simp
  have e2 : registered pos (pre ++ [registration.converter A c1] ++ mid ++ [.converter A c2]) =
      (registered_from pos ((registered pos pre).register_converter pos A c1)
        mid).register_converter pos A c2 := by
    rw [e1, registered_append, registered_from_cons, registered_from_append]
    rfl
  rw [e2]
  constructor
  · rw [get_converter_register_converter_other pos _ A A _ c2 hs2 (fun _ => hne.symm)]
    exact g21
  · exact get_converter_register_converter_new pos _ A c2 hs2 g22

theorem get_converter_two_targets_witness :
    (⟨2, 10⟩ : type_converter_base).m_target_type = 2 ∧
    (⟨3, 11⟩ : type_converter_base).m_target_type = 3 ∧
    (2 : Nat) ≠ 3 ∧
    (∀ c, registration.converter 1 c ∈
      [registration.converter 1 ⟨4, 5⟩, .comparator 1 ⟨6⟩] ++
        [.converter 0 ⟨3, 7⟩, .converter 1 ⟨5, 8⟩] →
      c.m_target_type ≠ 2 ∧ c.m_target_type ≠ 3) ∧
    get_converter (registered .at_lower_bound
      ([.converter 1 ⟨4, 5⟩, .comparator 1 ⟨6⟩] ++ [.converter 1 ⟨2, 10⟩] ++
        [.converter 0 ⟨3, 7⟩, .converter 1 ⟨5, 8⟩] ++ [.converter 1 ⟨3, 11⟩])) 1 2 =
        some ⟨2, 10⟩ ∧
    get_converter (registered .at_lower_bound
      ([.converter 1 ⟨4, 5⟩, .comparator 1 ⟨6⟩] ++ [.converter 1 ⟨2, 10⟩] ++
        [.converter 0 ⟨3, 7⟩, .converter 1 ⟨5, 8⟩] ++ [.converter 1 ⟨3, 11⟩])) 1 3 =
        some ⟨3, 11⟩ :=
  ⟨rfl, rfl, by decide, by simp,
    get_converter_two_targets .at_lower_bound [.converter 1 ⟨4, 5⟩, .comparator 1 ⟨6⟩]
      [.converter 0 ⟨3, 7⟩, .converter 1 ⟨5, 8⟩] 1 2 3 ⟨2, 10⟩ ⟨3, 11⟩ rfl rfl (by decide)
      (by simp)⟩

/-! ## Metadata -/

end rttr.detail

/-! ## `order_by_id` as an ordering -/

namespace rttr.detail

open data_container type_database

/-- C11: for every type id `i` and every entry `e`, exactly one of
`order_by_id(i, e)`, `order_by_id(e, i)`, `i == e.m_id` holds; hence the entry
matches the searched id exactly when neither mixed-argument comparison is
true. -/
theorem order_by_id_three_way {D : Type} (i : Nat) (e : data_container D) :
    ((order_by_id_left i e = true ∧ order_by_id_right e i = false ∧ i ≠ e.m_id) ∨
      (order_by_id_left i e = false ∧ order_by_id_right e i = true ∧ i ≠ e.m_id) ∨
      (order_by_id_left i e = false ∧ order_by_id_right e i = false ∧ i = e.m_id)) ∧
    (i = e.m_id ↔ (order_by_id_left i e = false ∧ order_by_id_right e i = false)) := by
  simp only [order_by_id_left, order_by_id_right, decide_eq_true_eq, decide_eq_false_iff_not]
  constructor
  · rcases Nat.lt_trichotomy i e.m_id with h | h | h
    · left; omega
    · right; right; omega
    · right; left; omega
  · omega

theorem order_by_id_three_way_witness :
    ((order_by_id_left 5 (⟨7, 'x'⟩ : data_container Char) = true ∧
        order_by_id_right (⟨7, 'x'⟩ : data_container Char) 5 = false ∧ 5 ≠ 7) ∨
      (order_by_id_left 5 (⟨7, 'x'⟩ : data_container Char) = false ∧
        order_by_id_right (⟨7, 'x'⟩ : data_container Char) 5 = true ∧ 5 ≠ 7) ∨
      (order_by_id_left 5 (⟨7, 'x'⟩ : data_container Char) = false ∧
        order_by_id_right (⟨7, 'x'⟩ : data_container Char) 5 = false ∧ 5 = 7)) ∧
    (5 = 7 ↔ (order_by_id_left 5 (⟨7, 'x'⟩ : data_container Char) = false ∧
      order_by_id_right (⟨7, 'x'⟩ : data_container Char) 5 = false)) :=
  order_by_id_three_way 5 (⟨7, 'x'⟩ : data_container Char)

/-- C13: `order_by_id` on two entries is a strict weak ordering: it is
irreflexive, asymmetric and transitive, and incomparability (neither `l < r`
nor `r < l`) is an equivalence relation that holds exactly when
`l.m_id == r.m_id`. -/
theorem order_by_id_strict_weak_ordering (D : Type) :
    (∀ l : data_container D, order_by_id l l = false) ∧
    (∀ l r : data_container D, order_by_id l r = true → order_by_id r l = false) ∧
    (∀ a b c : data_container D, order_by_id a b = true → order_by_id b c = true →
      order_by_id a c = true) ∧
    (∀ l r : data_container D,
      (order_by_id l r = false ∧ order_by_id r l = false) ↔ l.m_id = r.m_id) ∧
    Equivalence (fun l r : data_container D =>
      order_by_id l r = false ∧ order_by_id r l = false) := by
  have hinc : ∀ l r : data_container D,
      (order_by_id l r = false ∧ order_by_id r l = false) ↔ l.m_id = r.m_id := by
    intro l r
    simp only [order_by_id, decide_eq_false_iff_not]
    omega
  refine ⟨?_, ?_, ?_, hinc, ?_⟩
  · intro l
    simp [order_by_id]
  · intro l r h
    simp only [order_by_id, decide_eq_true_eq, decide_eq_false_iff_not] at h ⊢
    omega
  · intro a b c hab hbc
    simp only [order_by_id, decide_eq_true_eq] at hab hbc ⊢
    omega
  · refine ⟨?_, ?_, ?_⟩
    · intro l
      exact (hinc l l).mpr rfl
    · intro l r h
      exact (hinc r l).mpr ((hinc l r).mp h).symm
    · intro a b c hab hbc
      exact (hinc a c).mpr (((hinc a b).mp hab).trans ((hinc b c).mp hbc))

theorem order_by_id_strict_weak_ordering_witness :
    order_by_id (⟨1, 'a'⟩ : data_container Char) ⟨2, 'b'⟩ = true ∧
    order_by_id (⟨2, 'b'⟩ : data_container Char) ⟨4, 'c'⟩ = true ∧
    order_by_id (⟨2, 'b'⟩ : data_container Char) ⟨1, 'a'⟩ = false ∧
    order_by_id (⟨1, 'a'⟩ : data_container Char) ⟨4, 'c'⟩ = true ∧
    ((order_by_id (⟨3, 'p'⟩ : data_container Char) ⟨3, 'q'⟩ = false ∧
      order_by_id (⟨3, 'q'⟩ : data_container Char) ⟨3, 'p'⟩ = false) ↔ 3 = 3) :=
  ⟨by decide, by decide,
    (order_by_id_strict_weak_ordering Char).2.1 ⟨1, 'a'⟩ ⟨2, 'b'⟩ (by decide),
    (order_by_id_strict_weak_ordering Char).2.2.1 ⟨1, 'a'⟩ ⟨2, 'b'⟩ ⟨4, 'c'⟩ (by decide)
      (by decide),
    (order_by_id_strict_weak_ordering Char).2.2.2.1 ⟨3, 'p'⟩ ⟨3, 'q'⟩⟩

/-- C14: the three `order_by_id` overloads agree and ignore the payload: for
all entries `l`, `r`,
`order_by_id(l, r) == order_by_id(l.m_id, r) == order_by_id(l, r.m_id) ==
(l.m_id < r.m_id)`, and the result is unchanged when `m_data` of either entry
is replaced. Consequently a vector sorted under the entry/entry overload is
partitioned with respect to any bare id under the mixed overloads: the
entries ordered before the id come first, and the entries the id is ordered
before come last. -/
theorem order_by_id_overloads_agree (D : Type) :
    (∀ l r : data_container D,
      order_by_id l r = order_by_id_left l.m_id r ∧
      order_by_id_left l.m_id r = order_by_id_right l r.m_id ∧
      order_by_id_right l r.m_id = decide (l.m_id < r.m_id) ∧
      ∀ d₁ d₂ : D, order_by_id (⟨l.m_id, d₁⟩ : data_container D) ⟨r.m_id, d₂⟩ =
        order_by_id l r) ∧
    (∀ (vec : List (data_container D)) (id : Nat), sorted_by_id vec →
      partitioned (fun e => order_by_id_right e id) vec ∧
      partitioned (fun e => !order_by_id_left id e) vec) := by
  constructor
  · intro l r
    exact ⟨rfl, rfl, rfl, fun _ _ => rfl⟩
  · intro vec id hsorted
    rw [sorted_by_id_iff] at hsorted
    constructor
    · unfold partitioned
      refine hsorted.imp ?_
      intro a b hab hb
      simp only [order_by_id_right, decide_eq_true_eq] at hb ⊢
      omega
    · unfold partitioned
      refine hsorted.imp ?_
      intro a b hab hb
      simp only [order_by_id_left, Bool.not_eq_true', decide_eq_false_iff_not] at hb ⊢
      omega

theorem order_by_id_overloads_agree_witness :
    sorted_by_id ([⟨1, 'a'⟩, ⟨3, 'b'⟩, ⟨3, 'c'⟩, ⟨6, 'd'⟩] : List (data_container Char)) ∧
    partitioned (fun e => order_by_id_right e 3)
      ([⟨1, 'a'⟩, ⟨3, 'b'⟩, ⟨3, 'c'⟩, ⟨6, 'd'⟩] : List (data_container Char)) ∧
    partitioned (fun e => !order_by_id_left 3 e)
      ([⟨1, 'a'⟩, ⟨3, 'b'⟩, ⟨3, 'c'⟩, ⟨6, 'd'⟩] : List (data_container Char)) :=
  ⟨by simp [sorted_by_id, order_by_id],
    (order_by_id_overloads_agree Char).2 [⟨1, 'a'⟩, ⟨3, 'b'⟩, ⟨3, 'c'⟩, ⟨6, 'd'⟩] 3
      (by simp [sorted_by_id, order_by_id])⟩

end rttr.detail

/-! ## Last byte, embedded NUL and word width -/

namespace rttr.detail

open data_container type_database

theorem to_size_t_lt (p : platform) (v : Int) : to_size_t p v < 2 ^ p.size_t_bits := by
  unfold to_size_t
  have hpos : (0 : Int) < ((2 ^ p.size_t_bits : Nat) : Int) := by positivity
  have h1 : v % ((2 ^ p.size_t_bits : Nat) : Int) < ((2 ^ p.size_t_bits : Nat) : Int) :=
    Int.emod_lt_of_pos _ hpos
  have h0 : 0 ≤ v % ((2 ^ p.size_t_bits : Nat) : Int) := Int.emod_nonneg _ (ne_of_gt hpos)
  omega

/-- The conversion of a `char` to `std::size_t` keeps the byte in its low
eight bits, sign-extended or not, so it is injective on bytes. -/
theorem to_size_t_char_value_mod_256 (p : platform) (c : Fin 256) (hw : 8 ≤ p.size_t_bits) :
    to_size_t p (char_value p c) % 256 = c.val := by
  have hc := c.isLt
  by_cases hsx : p.char_signed = true ∧ 128 ≤ c.val
  · rw [to_size_t_char_value_signed p c hw hsx.1 hsx.2]
    obtain ⟨k, hk⟩ : ∃ k, 2 ^ p.size_t_bits = 256 * k := by
      refine ⟨2 ^ (p.size_t_bits - 8), ?_⟩
      have : p.size_t_bits = 8 + (p.size_t_bits - 8) := by omega
      conv_lhs => rw [this, Nat.pow_add]
    have hkpos : 0 < 2 ^ p.size_t_bits := by positivity
    omega
  · rw [to_size_t_char_value_plain p c hw (fun h => by
      by_contra hcon
      exact hsx ⟨h, by omega⟩)]
    omega

/-- Every value the loop carries, from the second one on, is reduced modulo
the word. -/
theorem foldl_step_lt (p : platform) (magic_prime : Nat) (s : List (Fin 256)) (hash : Nat)
    (h : hash < 2 ^ p.size_t_bits) :
    s.foldl (fun hash c =>
      ((hash ^^^ to_size_t p (char_value p c)) * magic_prime) % 2 ^ p.size_t_bits) hash
      < 2 ^ p.size_t_bits := by
  induction s generalizing hash with
  | nil => exact h
  | cons c s ih =>
    simp only [List.foldl_cons]
    exact ih _ (Nat.mod_lt _ (by positivity))

/-- One step of the loop is injective in the byte: the multiplier is odd,
hence invertible modulo the word, and XOR with the hash is injective. -/
theorem step_injective (p : platform) (hw : 8 ≤ p.size_t_bits) (hash : Nat)
    (hh : hash < 2 ^ p.size_t_bits) (a b : Fin 256)
    (heq : ((hash ^^^ to_size_t p (char_value p a)) * to_size_t p 0x01000193) % 2 ^ p.size_t_bits =
      ((hash ^^^ to_size_t p (char_value p b)) * to_size_t p 0x01000193) % 2 ^ p.size_t_bits) :
    a = b := by
  rw [to_size_t_ofNat_prime, Nat.mul_mod, Nat.mod_mod, ← Nat.mul_mod] at heq
  conv_rhs at heq => rw [Nat.mul_mod, Nat.mod_mod, ← Nat.mul_mod]
  have hcop : Nat.gcd (2 ^ p.size_t_bits) 0x01000193 = 1 :=
    Nat.Coprime.pow_left _ (by norm_num : Nat.Coprime 2 0x01000193)
  have hcancel : hash ^^^ to_size_t p (char_value p a) ≡
      hash ^^^ to_size_t p (char_value p b) [MOD 2 ^ p.size_t_bits] :=
    Nat.ModEq.cancel_right_of_coprime hcop heq
  unfold Nat.ModEq at hcancel
  rw [Nat.mod_eq_of_lt (Nat.xor_lt_two_pow hh (to_size_t_lt p _)),
    Nat.mod_eq_of_lt (Nat.xor_lt_two_pow hh (to_size_t_lt p _))] at hcancel
  have hconv := Nat.xor_right_inj.mp hcancel
  have ha := to_size_t_char_value_mod_256 p a hw
  have hb := to_size_t_char_value_mod_256 p b hw
  apply Fin.ext
  rw [← ha, ← hb, hconv]

theorem generate_hash_string_eq_foldl (p : platform) (s : List (Fin 256))
    (hs : ∀ c ∈ s, c ≠ 0) :
    generate_hash_string p s =
      some (s.foldl (fun hash c =>
        ((hash ^^^ to_size_t p (char_value p c)) * to_size_t p 0x01000193) %
          2 ^ p.size_t_bits) (to_size_t p 0xcbf29ce4)) := by
  unfold generate_hash_string c_str generate_hash
  exact generate_hash_loop_terminated p _ s [] hs _

/-- C15: last-byte injectivity: for every NUL-free prefix `s` and every two
distinct non-NUL bytes `a ≠ b`, `generate_hash(s ++ [a])` and
`generate_hash(s ++ [b])` are both produced and differ, on every platform
whose `std::size_t` has at least 8 bits, whatever the signedness of `char`;
with `s` empty, no two distinct one-byte strings collide. -/
theorem generate_hash_last_byte_injective (p : platform) (hw : 8 ≤ p.size_t_bits)
    (s : List (Fin 256)) (a b : Fin 256) (hs : ∀ c ∈ s, c ≠ 0) (ha : a ≠ 0) (hb : b ≠ 0)
    (hab : a ≠ b) :
    generate_hash_string p (s ++ [a]) ≠ generate_hash_string p (s ++ [b]) ∧
    (generate_hash_string p (s ++ [a])).isSome = true ∧
    (generate_hash_string p (s ++ [b])).isSome = true := by
  have hsa : ∀ c ∈ s ++ [a], c ≠ 0 := by
    intro c hc
    rcases List.mem_append.mp hc with h | h
    · exact hs c h
    · rw [List.mem_singleton.mp h]; exact ha
  have hsb : ∀ c ∈ s ++ [b], c ≠ 0 := by
    intro c hc
    rcases List.mem_append.mp hc with h | h
    · exact hs c h
    · rw [List.mem_singleton.mp h]; exact hb
  rw [generate_hash_string_eq_foldl p _ hsa, generate_hash_string_eq_foldl p _ hsb]
  refine ⟨?_, rfl, rfl⟩
  intro heq
  have heq2 := Option.some.inj heq
  simp only [List.foldl_append, List.foldl_cons, List.foldl_nil] at heq2
  exact hab (step_injective p hw _
    (foldl_step_lt p _ s _ (to_size_t_lt p _)) a b heq2)

theorem generate_hash_last_byte_injective_witness :
    8 ≤ (⟨64, true⟩ : platform).size_t_bits ∧
    (∀ c ∈ ([0x66, 0xf6] : List (Fin 256)), c ≠ 0) ∧
    (0x01 : Fin 256) ≠ 0 ∧ (0xff : Fin 256) ≠ 0 ∧ (0x01 : Fin 256) ≠ 0xff ∧
    generate_hash_string ⟨64, true⟩ ([0x66, 0xf6] ++ [0x01]) ≠
      generate_hash_string ⟨64, true⟩ ([0x66, 0xf6] ++ [0xff]) ∧
    (generate_hash_string ⟨64, true⟩ ([0x66, 0xf6] ++ [0x01])).isSome = true ∧
    (generate_hash_string ⟨64, true⟩ ([0x66, 0xf6] ++ [0xff])).isSome = true :=
  ⟨by decide, by simp, by decide, by decide, by decide,
    generate_hash_last_byte_injective ⟨64, true⟩ (by decide) [0x66, 0xf6] 0x01 0xff (by simp)
      (by decide) (by decide) (by decide)⟩

/-- C16: NUL truncation in the `std::string` overload: for every NUL-free
`s` and arbitrary `t`, `generate_hash(std::string(s ++ [0] ++ t))` equals
`generate_hash(s)`, and it is the fold of the loop body over `s` alone: the
bytes after the embedded NUL, and the zero byte itself, are not hashed. -/
theorem generate_hash_string_truncates_at_nul (p : platform) (s t : List (Fin 256))
    (hs : ∀ c ∈ s, c ≠ 0) :
    generate_hash_string p (s ++ 0 :: t) = generate_hash_string p s ∧
    generate_hash_string p (s ++ 0 :: t) =
      some (s.foldl (fun hash c =>
        ((hash ^^^ to_size_t p (char_value p c)) * to_size_t p 0x01000193) %
          2 ^ p.size_t_bits) (to_size_t p 0xcbf29ce4)) := by
  have h1 : generate_hash_string p (s ++ 0 :: t) =
      some (s.foldl (fun hash c =>
        ((hash ^^^ to_size_t p (char_value p c)) * to_size_t p 0x01000193) %
          2 ^ p.size_t_bits) (to_size_t p 0xcbf29ce4)) := by
    unfold generate_hash_string c_str generate_hash
    rw [List.append_assoc, List.cons_append]
    exact generate_hash_loop_terminated p _ s (t ++ [0]) hs _
  exact ⟨by rw [h1, generate_hash_string_eq_foldl p s hs], h1⟩

theorem generate_hash_string_truncates_at_nul_witness :
    (∀ c ∈ ([0x66, 0xf6] : List (Fin 256)), c ≠ 0) ∧
    generate_hash_string ⟨64, true⟩ ([0x66, 0xf6] ++ 0 :: [0x41, 0x00, 0x42]) =
      generate_hash_string ⟨64, true⟩ [0x66, 0xf6] ∧
    generate_hash_string ⟨64, true⟩ ([0x66, 0xf6] ++ 0 :: [0x41, 0x00, 0x42]) =
      some (([0x66, 0xf6] : List (Fin 256)).foldl (fun hash c =>
        ((hash ^^^ to_size_t ⟨64, true⟩ (char_value ⟨64, true⟩ c)) *
          to_size_t ⟨64, true⟩ 0x01000193) % 2 ^ (⟨64, true⟩ : platform).size_t_bits)
        (to_size_t ⟨64, true⟩ 0xcbf29ce4)) :=
  ⟨by simp, generate_hash_string_truncates_at_nul ⟨64, true⟩ [0x66, 0xf6] [0x41, 0x00, 0x42]
    (by simp)⟩

/-- Truncation to a narrower word commutes with XOR. -/
theorem xor_mod_two_pow_eq (a b n : Nat) :
    (a ^^^ b) % 2 ^ n = (a % 2 ^ n) ^^^ (b % 2 ^ n) := by
  apply Nat.eq_of_testBit_eq
  intro i
  simp only [Nat.testBit_mod_two_pow, Nat.testBit_xor]
  by_cases h : i < n <;> simp [h]

/-- Converting to a wider `std::size_t` and truncating gives the conversion
to the narrower one. -/
theorem to_size_t_mod_of_le (p q : platform) (hle : q.size_t_bits ≤ p.size_t_bits) (v : Int) :
    to_size_t p v % 2 ^ q.size_t_bits = to_size_t q v := by
  unfold to_size_t
  have hp : (0 : Int) < ((2 ^ p.size_t_bits : Nat) : Int) := by positivity
  have hq : (0 : Int) < ((2 ^ q.size_t_bits : Nat) : Int) := by positivity
  have hx : 0 ≤ v % ((2 ^ p.size_t_bits : Nat) : Int) := Int.emod_nonneg _ (ne_of_gt hp)
  have hy : 0 ≤ v % ((2 ^ q.size_t_bits : Nat) : Int) := Int.emod_nonneg _ (ne_of_gt hq)
  have hdvd : ((2 ^ q.size_t_bits : Nat) : Int) ∣ ((2 ^ p.size_t_bits : Nat) : Int) := by
    apply Int.natCast_dvd_natCast.mpr
    exact Nat.pow_dvd_pow 2 hle
  have hcast : (((v % ((2 ^ p.size_t_bits : Nat) : Int)).toNat % 2 ^ q.size_t_bits : Nat) : Int) =
      (((v % ((2 ^ q.size_t_bits : Nat) : Int)).toNat : Nat) : Int) := by
    rw [Int.natCast_mod, Int.toNat_of_nonneg hx, Int.toNat_of_nonneg hy,
      Int.emod_emod_of_dvd v hdvd]
  exact_mod_cast hcast

/-- The loop on a wider word, truncated, is the loop on the narrower word
(same signedness of `char`), on every memory content. -/
theorem generate_hash_loop_narrow (p q : platform) (hsign : p.char_signed = q.char_signed)
    (hle : q.size_t_bits ≤ p.size_t_bits) (mp mq : Nat) (hm : mp % 2 ^ q.size_t_bits = mq)
    (text : List (Fin 256)) (hash : Nat) :
    (generate_hash_loop p mp hash text).map (fun h => h % 2 ^ q.size_t_bits) =
      generate_hash_loop q mq (hash % 2 ^ q.size_t_bits) text := by
  induction text generalizing hash with
  | nil => simp [generate_hash_loop]
  | cons c text ih =>
    by_cases hc : c = 0
    · simp [generate_hash_loop, hc]
    · simp only [generate_hash_loop, hc, if_false]
      rw [ih]
      congr 1
      have hdvd : 2 ^ q.size_t_bits ∣ 2 ^ p.size_t_bits := Nat.pow_dvd_pow 2 hle
      have hcv : char_value p c = char_value q c := by
        unfold char_value
        rw [hsign]
      rw [Nat.mod_mod_of_dvd _ hdvd, Nat.mul_mod, xor_mod_two_pow_eq, hm,
        to_size_t_mod_of_le p q hle, hcv]

theorem generate_hash_narrow (p q : platform) (hsign : p.char_signed = q.char_signed)
    (hle : q.size_t_bits ≤ p.size_t_bits) (text : List (Fin 256)) :
    (generate_hash p text).map (fun h => h % 2 ^ q.size_t_bits) = generate_hash q text := by
  unfold generate_hash
  rw [generate_hash_loop_narrow p q hsign hle _ (to_size_t q 0x01000193)
    (to_size_t_mod_of_le p q hle _), to_size_t_mod_of_le p q hle]

/-- C17: width independence of the low word: for every input, `generate_hash`
evaluated with a 64-bit `std::size_t`, reduced modulo `2^32`, equals
`generate_hash` evaluated with a 32-bit `std::size_t` on the same input (same
signedness of `char`), for both overloads; the hash type itself is
`std::size_t`, not a fixed-width integer: the 64-bit and the 32-bit hash of
`"a"` are different numbers. -/
theorem generate_hash_low_word (char_signed : Bool) (text : List (Fin 256)) :
    (generate_hash ⟨64, char_signed⟩ text).map (fun h => h % 2 ^ 32) =
      generate_hash ⟨32, char_signed⟩ text ∧
    (generate_hash_string ⟨64, char_signed⟩ text).map (fun h => h % 2 ^ 32) =
      generate_hash_string ⟨32, char_signed⟩ text ∧
    generate_hash_string ⟨64, char_signed⟩ str_a = some 0xcbf3dd93ec655f ∧
    generate_hash_string ⟨32, char_signed⟩ str_a = some 0x93ec655f := by
  refine ⟨?_, ?_, ?_, ?_⟩
  · exact generate_hash_narrow ⟨64, char_signed⟩ ⟨32, char_signed⟩ rfl (by simp) text
  · exact generate_hash_narrow ⟨64, char_signed⟩ ⟨32, char_signed⟩ rfl (by simp) (c_str text)
  · cases char_signed <;> decide
  · cases char_signed <;> decide

end rttr.detail
